import Mathlib

/-!
# emtr: per-hop statistics and the merge operation

A shallow embedding of `hop/hop.go` (the `HopStatistic` record, its derived
statistics `Avg`, `Stdev`, `Loss`, `packets`, and `lookupAddr`) and of
`mtr/mtr.go` (`NewMTR`, the merge `registerStatistic` with `addTarget`, the round
`discover`, `Run` and `GoroutineNotPanic`).

Conventions of the embedding.

* Go `int` and `time.Duration` (nanoseconds) are integers; no counter of this
  program is used modulo a word size, so they are carried as `Int`.
* `float64` arithmetic on finite values is carried out exactly in `ℚ`; the
  special values that the code can produce (a division by zero, `NaN`) are
  explicit constructors of `F64`, and the value of `math.Sqrt` is carried by its
  radicand (`Sqrt64.root q` is the non-negative real whose square is `q`).
* A `*ring.Ring` is the list of its slots in `Next` order, the first slot being
  the one the pointer designates; the nil ring (what `ring.New` returns for a
  capacity that is not positive) is the empty list.
* A run-time panic is the result `none`.
* Library calls that reach outside the program (`net.ParseIP`, `net.LookupHost`,
  `net.LookupAddr`, the probe transport, the random identifier of a round) are
  parameters of the functions that make them.
-/

namespace Emtr

/-! ## Data model -/

/-- Modelled from the spec: the probe result type `icmp.ICMPReturn`, declared in
package `icmp`, which is not among the source files; the fields are the ones
`hop.go` and `mtr.go` read (`Success`, `Addr`, `Elapsed`, the latter a
`time.Duration` in nanoseconds). -/
structure ICMPReturn where
  Success : Bool
  Addr : String
  Elapsed : Int
deriving DecidableEq

/-- The zero value of `icmp.ICMPReturn`. -/
def ICMPReturn.zero : ICMPReturn := { Success := false, Addr := "", Elapsed := 0 }

/-- A `*ring.Ring` whose slot values are `nil` or an `ICMPReturn`: the slots in
`Next` order starting at the designated one; `[]` is the nil ring. -/
structure PacketRing where
  slots : List (Option ICMPReturn)
deriving DecidableEq

/-- The call `ring.New(n)`: `n` empty slots, the nil ring when `n <= 0`. -/
def PacketRing.New (n : Int) : PacketRing := ⟨List.replicate n.toNat none⟩

/-- The call `r.Prev()`: the pointer moves one slot backwards, so the slot that was last in
`Next` order becomes the designated one. Dereferencing the nil ring panics. -/
def PacketRing.Prev (r : PacketRing) : Option PacketRing :=
  match r.slots.getLast? with
  | none => none
  | some x => some ⟨x :: r.slots.dropLast⟩

/-- The assignment `r.Value = x`: overwrite the designated slot. Panics on the nil ring. -/
def PacketRing.setValue (r : PacketRing) (x : ICMPReturn) : Option PacketRing :=
  match r.slots with
  | [] => none
  | _ :: rest => some ⟨some x :: rest⟩

/-- The call `r.Do(f)`: the slot values in the order in which `f` is called on them. -/
def PacketRing.Do (r : PacketRing) : List (Option ICMPReturn) := r.slots

/-- The struct `hop.HopStatistic`. `Dest` is a pointer (`none` is nil) and `dnsCache` a map
(`none` is the nil map). -/
structure HopStatistic where
  Dest : Option String
  Timeout : Int
  PID : Int
  Sent : Int
  TTL : Int
  Targets : List String
  Last : ICMPReturn
  Best : ICMPReturn
  Worst : ICMPReturn
  SumElapsed : Int
  Lost : Int
  Packets : PacketRing
  RingBufferSize : Int
  dnsCache : Option (List (String × String))
deriving DecidableEq

/-- The `packet` struct of `hop.go`; `ResponseTime` is in milliseconds. -/
structure packet where
  Success : Bool
  ResponseTime : ℚ
deriving DecidableEq

/-- The fields of `mtr.MTR` (the mutex apart); `Statistic` is the map from TTL to
record. -/
structure MTR where
  Count : Int
  SrcAddress : String
  timeout : Int
  interval : Int
  Address : String
  hopsleep : Int
  Statistic : Int → Option HopStatistic
  ringBufferSize : Int
  maxHops : Int
  maxUnknownHops : Int
  ptrLookup : Bool

/-! ## Floating point values -/

/-- A `float64`: a finite value (kept exact), an infinity, or `NaN`. -/
inductive F64 where
  | fin (q : ℚ)
  | inf (negative : Bool)
  | nan
deriving DecidableEq

/-- The conversion `float64(n)` for an integer `n`. -/
def F64.ofInt (n : Int) : F64 := F64.fin n

/-- Floating point division: a finite non-zero value over zero is an infinity,
zero over zero and infinity over infinity are `NaN`. -/
def F64.div : F64 → F64 → F64
  | F64.nan, _ => F64.nan
  | _, F64.nan => F64.nan
  | F64.inf _, F64.inf _ => F64.nan
  | F64.inf a, F64.fin d => F64.inf (a != decide (d < 0))
  | F64.fin _, F64.inf _ => F64.fin 0
  | F64.fin x, F64.fin d =>
    if d = 0 then (if x = 0 then F64.nan else F64.inf (decide (x < 0)))
    else F64.fin (x / d)

/-- Floating point multiplication: zero times infinity is `NaN`. -/
def F64.mul : F64 → F64 → F64
  | F64.nan, _ => F64.nan
  | _, F64.nan => F64.nan
  | F64.inf a, F64.inf b => F64.inf (a != b)
  | F64.inf a, F64.fin y => if y = 0 then F64.nan else F64.inf (a != decide (y < 0))
  | F64.fin x, F64.inf b => if x = 0 then F64.nan else F64.inf (decide (x < 0) != b)
  | F64.fin x, F64.fin y => F64.fin (x * y)

/-- The value of `math.Sqrt`: `root q` is the non-negative real whose square is
`q`. -/
inductive Sqrt64 where
  | root (q : ℚ)
  | inf
  | nan
deriving DecidableEq

/-- The function `math.Sqrt`: `NaN` for a negative argument and for `NaN`. -/
def F64.Sqrt : F64 → Sqrt64
  | F64.fin q => if q < 0 then Sqrt64.nan else Sqrt64.root q
  | F64.inf false => Sqrt64.inf
  | F64.inf true => Sqrt64.nan
  | F64.nan => Sqrt64.nan

/-- The function `math.IsNaN`. -/
def Sqrt64.IsNaN : Sqrt64 → Bool
  | Sqrt64.nan => true
  | _ => false

/-- The value `d.Seconds() * 1000` for a duration `d` in nanoseconds. -/
def millis (d : Int) : ℚ := (d : ℚ) / 1000000000 * 1000

/-! ## hop.go -/

/-- One call of the closure that `packets` hands to `Do`: the rendering of a ring
slot (`nil` stays `nil`, a success carries its response time, a failure `0`). -/
def renderSlot : Option ICMPReturn → Option packet
  | none => none
  | some x =>
    if x.Success then some { Success := true, ResponseTime := millis x.Elapsed }
    else some { Success := false, ResponseTime := 0 }

/-- The write `v[i] = ...; i++` of the closure of `packets`, on the slice `v` and
the index `i`; a write past the end of the slice panics. -/
def fillSlot (st : List (Option packet) × Nat) (f : Option ICMPReturn) :
    Option (List (Option packet) × Nat) :=
  if st.2 < st.1.length then some (st.1.set st.2 (renderSlot f), st.2 + 1) else none

/-- The method `HopStatistic.packets`: a slice of `RingBufferSize` nil entries (`make` panics
on a negative length), filled from index `0` by walking the ring with `Do`. -/
def HopStatistic.packets (h : HopStatistic) : Option (List (Option packet)) :=
  if h.RingBufferSize < 0 then none
  else
    let v : List (Option packet) := List.replicate h.RingBufferSize.toNat none
    (h.Packets.Do.foldlM fillSlot (v, 0)).map Prod.fst

/-- The method `HopStatistic.Avg`: the guarded running mean, in milliseconds. -/
def HopStatistic.Avg (h : HopStatistic) : ℚ :=
  if ¬ (h.Sent - h.Lost = 0) then millis h.SumElapsed / ((h.Sent - h.Lost : Int) : ℚ)
  else 0

/-- The body of the loop of `Stdev` on the entry `p`: an entry that is nil or
failed is skipped; otherwise `n++` and `result += distance * distance`, where
`distance` is `math.Abs(p.ResponseTime - avg)`. The accumulator is the pair of
`result` and `n`. -/
def stdevStep (avg : ℚ) (acc : ℚ × Int) (p : Option packet) : ℚ × Int :=
  match p with
  | none => acc
  | some p =>
    if ¬ p.Success then acc
    else (acc.1 + |p.ResponseTime - avg| * |p.ResponseTime - avg|, acc.2 + 1)

/-- The loop of `Stdev`, from `result = 0` and `n = 0`. -/
def stdevLoop (avg : ℚ) (ps : List (Option packet)) : ℚ × Int :=
  ps.foldl (stdevStep avg) (0, 0)

/-- The method `HopStatistic.Stdev`: the sum of the loop divided by the count, its square
root, and `0` in place of `NaN`. -/
def HopStatistic.Stdev (h : HopStatistic) : Option Sqrt64 :=
  match h.packets with
  | none => none
  | some ps =>
    let acc := stdevLoop h.Avg ps
    let result := F64.div (F64.fin acc.1) (F64.ofInt acc.2)
    let result := F64.Sqrt result
    if result.IsNaN then some (Sqrt64.root 0) else some result

/-- Specification side: the response time in milliseconds of a ring slot that
holds a successful result. -/
def slotMs : Option ICMPReturn → Option ℚ
  | none => none
  | some x => if x.Success then some (millis x.Elapsed) else none

/-- Specification side: the response times, in milliseconds, of the ring slots
that hold a successful result, in `Do` order (the set S of the standard
deviation). -/
def ringSuccessMs (h : HopStatistic) : List ℚ := h.Packets.slots.filterMap slotMs

/-- Specification side: the response time of an entry of the sample list that is
neither nil nor failed. -/
def packetMs : Option packet → Option ℚ
  | none => none
  | some p => if p.Success then some p.ResponseTime else none

/-- The method `HopStatistic.Loss`: `float64(Lost) / float64(Sent) * 100.0`, unguarded. -/
def HopStatistic.Loss (h : HopStatistic) : F64 :=
  F64.mul (F64.div (F64.ofInt h.Lost) (F64.ofInt h.Sent)) (F64.fin 100)

/-! ## mtr.go -/

/-- The function `addTarget`: an address already present changes nothing; on a non-empty list
the empty address is not added and a new real address evicts the empty
placeholder before being appended; on an empty list the address is appended
whatever it is. -/
def addTarget (currentTargets : List String) (toAdd : String) : List String :=
  if toAdd ∈ currentTargets then currentTargets
  else if currentTargets.length > 0 then
    if toAdd = "" then currentTargets
    else currentTargets.filter (fun t => decide (t ≠ "")) ++ [toAdd]
  else currentTargets ++ [toAdd]

/-- Specification side: the distinct elements of a list of addresses, each at the
place of its first appearance. -/
def firstSeen : List String → List String
  | [] => []
  | a :: l => a :: (firstSeen l).filter (fun b => decide (b ≠ a))

/-- Specification side: the non-empty responding addresses of a list of probe
results, in order. -/
def realAddrs (rs : List ICMPReturn) : List String :=
  (rs.map (fun r => r.Addr)).filter (fun a => decide (a ≠ ""))

/-- The record that `registerStatistic` creates when the TTL has none (the
composite literal of lines 80 to 89; the fields it does not name are zero). -/
def newRecord (m : MTR) (ttl : Int) (r : ICMPReturn) : HopStatistic :=
  { Dest := none
    Timeout := m.timeout
    PID := 0
    Sent := 0
    TTL := ttl
    Targets := []
    Last := r
    Best := ICMPReturn.zero
    Worst := r
    SumElapsed := 0
    Lost := 0
    Packets := PacketRing.New m.ringBufferSize
    RingBufferSize := m.ringBufferSize
    dnsCache := none }

/-- The update of the record `s` by `registerStatistic` (lines 93 to 115). -/
def mergeInto (s : HopStatistic) (r : ICMPReturn) : Option HopStatistic :=
  let s := { s with Last := r }
  let s := { s with Sent := s.Sent + 1 }
  let s := { s with Targets := addTarget s.Targets r.Addr }
  match s.Packets.Prev with
  | none => none
  | some p =>
    match p.setValue r with
    | none => none
    | some p =>
      let s := { s with Packets := p }
      if ¬ r.Success then
        some { s with Lost := s.Lost + 1 }
      else
        let s := { s with SumElapsed := r.Elapsed + s.SumElapsed }
        let s := if ¬ s.Best.Success ∨ s.Best.Elapsed > r.Elapsed then { s with Best := r } else s
        let s := if s.Worst.Elapsed < r.Elapsed then { s with Worst := r } else s
        some s

/-- The method `MTR.registerStatistic`: look the record of `ttl` up, create it when absent,
update it with `r`; the result is the orchestrator with the updated map and the
record returned. -/
def registerStatistic (m : MTR) (ttl : Int) (r : ICMPReturn) : Option (MTR × HopStatistic) :=
  let s := match m.Statistic ttl with
    | some s => s
    | none => newRecord m ttl r
  match mergeInto s r with
  | none => none
  | some s => some ({ m with Statistic := Function.update m.Statistic ttl (some s) }, s)

/-- The updates of lines 93 to 115 applied to one record for a sequence of results,
in order. -/
def mergeAll (s : HopStatistic) : List ICMPReturn → Option HopStatistic
  | [] => some s
  | r :: rs =>
    match mergeInto s r with
    | none => none
    | some s => mergeAll s rs

/-- A sequence of merges into the record of one TTL, in order. -/
def registerAll (m : MTR) (ttl : Int) : List ICMPReturn → Option MTR
  | [] => some m
  | r :: rs =>
    match registerStatistic m ttl r with
    | none => none
    | some res => registerAll res.1 ttl rs

/-- The record of `ttl` after a sequence of merges into it. -/
def recordAfter (m : MTR) (ttl : Int) (rs : List ICMPReturn) : Option HopStatistic :=
  match registerAll m ttl rs with
  | none => none
  | some m => m.Statistic ttl

/-- An orchestrator with ring capacity `n` and no record yet. -/
def emptyMTR (n : Int) : MTR :=
  { Count := 3
    SrcAddress := "0.0.0.0"
    timeout := 0
    interval := 0
    Address := "192.0.2.1"
    hopsleep := 0
    Statistic := fun _ => none
    ringBufferSize := n
    maxHops := 30
    maxUnknownHops := 10
    ptrLookup := false }

/-- A successful probe result answered by `addr` after `ms` milliseconds. -/
def okProbe (addr : String) (ms : Int) : ICMPReturn :=
  { Success := true, Addr := addr, Elapsed := ms * 1000000 }

/-- A failed probe result carrying the address `addr` and `ms` milliseconds. -/
def failProbe (addr : String) (ms : Int) : ICMPReturn :=
  { Success := false, Addr := addr, Elapsed := ms * 1000000 }

/-- The zero value `hop.HopStatistic{}`: every field zero, no ring, no cache. -/
def zeroHop : HopStatistic :=
  { Dest := none
    Timeout := 0
    PID := 0
    Sent := 0
    TTL := 0
    Targets := []
    Last := ICMPReturn.zero
    Best := ICMPReturn.zero
    Worst := ICMPReturn.zero
    SumElapsed := 0
    Lost := 0
    Packets := ⟨[]⟩
    RingBufferSize := 0
    dnsCache := none }

/-- A record with a ring of 3 slots that holds successes of 30 and 10 ms and one
empty slot. -/
def sampleHop : HopStatistic :=
  { zeroHop with
    Sent := 2
    SumElapsed := 40000000
    Packets := ⟨[some (okProbe "10.0.0.1" 30), some (okProbe "10.0.0.1" 10), none]⟩
    RingBufferSize := 3 }

/-- The scenario of the spec: successes of 10, 20 and 30 ms, a failure, a success
of 50 ms. -/
def scenario : List ICMPReturn :=
  [okProbe "10.0.0.1" 10, okProbe "10.0.0.1" 20, okProbe "10.0.0.1" 30,
   failProbe "" 0, okProbe "10.0.0.1" 50]


/-! ## Merges into several TTLs -/

/-- A sequence of merges, each into the record of its own TTL, in order. -/
def registerSeq (m : MTR) : List (Int × ICMPReturn) → Option MTR
  | [] => some m
  | p :: ps =>
    match registerStatistic m p.1 p.2 with
    | none => none
    | some res => registerSeq res.1 ps

/-! ## The reverse-name cache (hop.go) -/

/-- The read `c[k]` of a Go map kept as a list of bindings, the most recent
binding of a key first: the value and `ok`, or `none` when the key is absent. -/
def cacheGet : List (String × String) → String → Option String
  | [], _ => none
  | p :: rest, k => if p.1 = k then some p.2 else cacheGet rest k

/-- The write `c[k] = v` of a Go map kept as a list of bindings. -/
def cacheSet (c : List (String × String)) (k v : String) : List (String × String) :=
  (k, v) :: c

/-- The method `HopStatistic.lookupAddr`, with `net.LookupAddr` as the parameter
`resolver` (its names, or its error). The result is the string returned and the
record with its cache as the call leaves it; an index outside `Targets` and a
write into the nil map panic, a read of the nil map finds nothing. -/
def HopStatistic.lookupAddr (resolver : String → Except String (List String))
    (h : HopStatistic) (ptrLookup : Bool) (index : Int) : Option (String × HopStatistic) :=
  if index < 0 then none
  else
    match h.Targets[index.toNat]? with
    | none => none
    | some target =>
      if target ≠ "" then
        let addr :=
          if ptrLookup then
            match h.dnsCache.bind (fun c => cacheGet c target) with
            | some key => key
            | none =>
              match resolver target with
              | Except.ok (name :: _) => name
              | _ => target
          else target
        match h.dnsCache with
        | none => none
        | some c => some (addr, { h with dnsCache := some (cacheSet c target addr) })
      else some ("???", h)

/-- A resolver that fails on every address. -/
def noResolver : String → Except String (List String) := fun _ => Except.error "no such host"

/-- A resolver that knows one name for 10.0.0.1 and fails otherwise. -/
def oneResolver : String → Except String (List String) := fun a =>
  if a = "10.0.0.1" then Except.ok ["gw.example.net.", "alias.example.net."]
  else Except.error "no such host"

/-- A record with one responding address and an initialised, empty name cache. -/
def cachedHop : HopStatistic :=
  { zeroHop with Targets := ["10.0.0.1"], dnsCache := some [] }

/-! ## Construction (mtr.go) -/

/-- The function `NewMTR`. The library calls are parameters: `parseIP addr` tells
whether `net.ParseIP(addr)` is not nil, `isIPv4 addr` whether
`net.ParseIP(addr).To4()` is not nil, and `lookupHost` is `net.LookupHost` (its
addresses, or its error). The result is the error, or the orchestrator returned
with a nil error. -/
def NewMTR (parseIP isIPv4 : String → Bool) (lookupHost : String → Except String (List String))
    (addr srcAddr : String) (timeout interval hopsleep maxHops maxUnknownHops
      ringBufferSize : Int) (ptr : Bool) : Except String MTR :=
  let resolved : Except String String :=
    if parseIP addr = false then
      match lookupHost addr with
      | Except.error e => Except.error ("invalid host or ip provided: " ++ e)
      | Except.ok [] => Except.error "invalid host or ip provided: %!s(<nil>)"
      | Except.ok (first :: _) => Except.ok first
    else Except.ok addr
  match resolved with
  | Except.error e => Except.error e
  | Except.ok addr =>
    let srcAddr :=
      if srcAddr = "" then (if isIPv4 addr then "0.0.0.0" else "::") else srcAddr
    Except.ok
      { Count := 3
        SrcAddress := srcAddr
        interval := interval
        timeout := timeout
        hopsleep := hopsleep
        Address := addr
        Statistic := fun _ => none
        maxHops := maxHops
        ringBufferSize := ringBufferSize
        maxUnknownHops := maxUnknownHops
        ptrLookup := ptr }

/-- A stand-in for `net.ParseIP`: the literals used in the examples. -/
def exampleParseIP : String → Bool := fun a => decide (a = "192.0.2.1") || decide (a = "10.0.0.1")

/-- A stand-in for `net.LookupHost`: one host with two addresses, one host without
any, and an error otherwise. -/
def exampleLookupHost : String → Except String (List String) := fun a =>
  if a = "gw.example.net" then Except.ok ["10.0.0.1", "10.0.0.2"]
  else if a = "empty.example.net" then Except.ok []
  else Except.error "no such host"

/-! ## A discovery round (mtr.go) -/

/-- The values of the loop variable of `discover`: `count` consecutive TTLs from
`start` on. -/
def ttlsFrom (start : Int) : Nat → List Int
  | 0 => []
  | n + 1 => start :: ttlsFrom (start + 1) n

/-- The annotation `s.Dest = &ipAddr; s.PID = id` of a record by a round with the
identifier `id`. -/
def annotate (m : MTR) (id : Int) (s : HopStatistic) : HopStatistic :=
  { s with Dest := some m.Address, PID := id }

/-- The body of the loop of `discover` at `ttl`, the probe transport being the
function `probe` from the TTL to the result (its error is dropped by the code):
the result is merged into the record of `ttl`, the record is annotated with the
destination and the identifier `id` of the round, and the flag tells whether the
responding address is the destination, in which case the loop breaks. -/
def discoverStep (probe : Int → ICMPReturn) (id : Int) (m : MTR) (ttl : Int) :
    Option (MTR × Bool) :=
  let hopReturn := probe ttl
  match registerStatistic m ttl hopReturn with
  | none => none
  | some res =>
    let s := annotate m id res.2
    some ({ res.1 with Statistic := Function.update res.1.Statistic ttl (some s) },
      decide (hopReturn.Addr = m.Address))

/-- The loop of `discover` over the TTLs still to visit. `issued` is the list of
the TTLs probed and merged so far, in order; it is part of the model only. -/
def discoverLoop (probe : Int → ICMPReturn) (id : Int) :
    List Int → MTR → List Int → Option (MTR × List Int)
  | [], m, issued => some (m, issued)
  | ttl :: rest, m, issued =>
    match discoverStep probe id m ttl with
    | none => none
    | some res =>
      if res.2 then some (res.1, issued ++ [ttl])
      else discoverLoop probe id rest res.1 (issued ++ [ttl])

/-- The method `MTR.discover`: `for ttl := 1; ttl < m.maxHops; ttl++`, with the
random identifier of the round as the parameter `id`. The result is the
orchestrator after the round and the TTLs probed, in order. -/
def discover (probe : Int → ICMPReturn) (id : Int) (m : MTR) : Option (MTR × List Int) :=
  discoverLoop probe id (ttlsFrom 1 (m.maxHops - 1).toNat) m []

/-- A transport on a path of length 4: the hops 10.0.0.1, 10.0.0.2 and 10.0.0.3
answer at TTLs 1 to 3 and the destination 192.0.2.1 answers from TTL 4 on. -/
def pathProbe : Int → ICMPReturn := fun ttl =>
  if ttl = 1 then okProbe "10.0.0.1" 1
  else if ttl = 2 then okProbe "10.0.0.2" 2
  else if ttl = 3 then okProbe "10.0.0.3" 3
  else okProbe "192.0.2.1" 4

/-- An orchestrator with ring size 5, no record, destination 192.0.2.1 and a
maximum of 10 hops. -/
def pathMTR : MTR := { emptyMTR 5 with maxHops := 10 }

/-! ## Fan-out and panic containment (mtr.go) -/

/-- What a handler passed to `GoroutineNotPanic` does when it is called: it
returns an error value (`none` is the nil error) or it panics with a value. -/
inductive HandlerResult where
  | returns (e : Option String)
  | panics (v : String)
deriving DecidableEq

/-- The goroutine that `GoroutineNotPanic` starts for one handler, on the shared
result `err`. A handler that returns stores its error when `err` is still nil.
For a handler that panics the deferred function recovers the value and first
calls `log.Printf(err.Error())`: with `err` nil this call is a nil dereference, a
second panic, raised inside the deferred function and recovered by nothing, which
ends the process (`none`); with `err` not nil the error built from the recovered
value replaces it. -/
def goroutineBody (err : Option String) (handler : HandlerResult) : Option (Option String) :=
  match handler with
  | HandlerResult.returns e => if err = none ∧ e ≠ none then some e else some err
  | HandlerResult.panics v =>
    match err with
    | none => none
    | some _ => some (some ("panic recovered: " ++ v))

/-- The function `GoroutineNotPanic` under the schedule that runs the goroutines
to their end one after the other in the order of the handlers: the error
returned after `wg.Wait()`, or `none` when the process has ended on a panic. -/
def GoroutineNotPanic (handlers : List HandlerResult) : Option (Option String) :=
  handlers.foldlM goroutineBody none

/-! ## Concurrent rounds (mtr.go)

`Run` starts `Count` goroutines that each execute `discover`; every merge is done
between `m.mutex.Lock()` and `m.mutex.Unlock()`. An execution is therefore a
sequence of critical sections, each of them the body of the loop of one round at
its current TTL, the rounds taking turns in any order: a schedule is the list of
the indices of the rounds in the order in which they enter the critical section.
-/

/-- The next critical section of a round whose loop has still the TTLs `remaining`
to visit: the body of the loop at the first of them; the round is finished (no
TTL remains) when the loop breaks. A finished round does nothing. -/
def roundStep (probe : Int → ICMPReturn) (id : Int) (m : MTR) (remaining : List Int) :
    Option (MTR × List Int) :=
  match remaining with
  | [] => some (m, [])
  | ttl :: rest =>
    match discoverStep probe id m ttl with
    | none => none
    | some res => some (res.1, if res.2 then [] else rest)

/-- The execution of `k` rounds under a schedule: `remaining r` is the list of the
TTLs that round `r` has still to visit, `ids r` its identifier. An index that is
not below `k` names no round and is skipped. -/
def runRounds (probe : Int → ICMPReturn) (ids : Nat → Int) (k : Nat) :
    List Nat → MTR → (Nat → List Int) → Option (MTR × (Nat → List Int))
  | [], m, remaining => some (m, remaining)
  | r :: sched, m, remaining =>
    if r < k then
      match roundStep probe (ids r) m (remaining r) with
      | none => none
      | some res => runRounds probe ids k sched res.1 (Function.update remaining r res.2)
    else runRounds probe ids k sched m remaining

/-- The method `MTR.Run` under a schedule: `Count` rounds, each at the start of the
loop of `discover`. The result is the orchestrator and, for each round, the TTLs
it has still to visit (none when the round has returned). -/
def Run (probe : Int → ICMPReturn) (ids : Nat → Int) (sched : List Nat) (m : MTR) :
    Option (MTR × (Nat → List Int)) :=
  runRounds probe ids m.Count.toNat sched m (fun _ => ttlsFrom 1 (m.maxHops - 1).toNat)

/-- The TTLs that a round has still to visit after `c` critical sections, when its
loop runs over the TTLs 1 to `n` and ends with its `j`-th step. -/
def remainingAfter (n j c : Nat) : List Int :=
  if c < j then ttlsFrom (1 + (c : Int)) (n - c) else []

/-- The counter Sent of a TTL, 0 when the TTL has no record. -/
def sentAt (m : MTR) (ttl : Int) : Int :=
  match m.Statistic ttl with
  | none => 0
  | some s => s.Sent

/-- The schedule that runs `k` rounds of at most `n` steps one after the other. -/
def sequentialSchedule (k n : Nat) : List Nat :=
  (List.range k).flatMap (fun r => List.replicate n r)

/-- The schedule that lets `k` rounds take turns, `n` times. -/
def roundRobinSchedule (k n : Nat) : List Nat :=
  (List.range n).flatMap (fun _ => List.range k)

/-- The orchestrator of the path example with three rounds (the value of `Count`
that `NewMTR` sets). -/
def pathRun : MTR := { pathMTR with Count := 3 }

/-! ## The merge step -/

theorem prev_setValue (xs : List (Option ICMPReturn)) (hx : xs ≠ []) (r : ICMPReturn) :
    ∃ p, PacketRing.Prev ⟨xs⟩ = some p ∧ p.setValue r = some ⟨some r :: xs.dropLast⟩ := by
  obtain ⟨a, ha⟩ : ∃ a, xs.getLast? = some a := by
    cases h : xs.getLast? with
    | none => exact absurd (List.getLast?_eq_none_iff.mp h) hx
    | some a => exact ⟨a, rfl⟩
  refine ⟨⟨a :: xs.dropLast⟩, ?_, rfl⟩
  simp [PacketRing.Prev, ha]

/-- One merge into a record whose ring is not nil: the record that results,
field by field. -/
theorem mergeInto_fields (s : HopStatistic) (r : ICMPReturn) (hx : s.Packets.slots ≠ []) :
    ∃ t, mergeInto s r = some t ∧
      t.Sent = s.Sent + 1 ∧
      t.Lost = s.Lost + (if r.Success then 0 else 1) ∧
      t.SumElapsed = s.SumElapsed + (if r.Success then r.Elapsed else 0) ∧
      t.Targets = addTarget s.Targets r.Addr ∧
      t.Packets.slots = some r :: s.Packets.slots.dropLast ∧
      t.RingBufferSize = s.RingBufferSize ∧
      t.Last = r ∧
      t.Best = (if r.Success = true ∧ (s.Best.Success = false ∨ r.Elapsed < s.Best.Elapsed)
        then r else s.Best) ∧
      t.Worst = (if r.Success = true ∧ s.Worst.Elapsed < r.Elapsed then r else s.Worst) := by
  obtain ⟨p, hp, hv⟩ := prev_setValue s.Packets.slots hx r
  have hp2 : s.Packets.Prev = some p := hp
  cases hs : r.Success
  · simp only [mergeInto, hp2, hv, hs]
    refine ⟨_, rfl, ?_⟩
    simp
  · by_cases hb : s.Best.Success = false ∨ r.Elapsed < s.Best.Elapsed <;>
    by_cases hw : s.Worst.Elapsed < r.Elapsed <;>
    · simp only [mergeInto, hp2, hv, hs]
      refine ⟨_, rfl, ?_⟩
      simp [hb, hw, add_comm]

/-! ## Sequences of merges -/

theorem recordAfter_of_some (ttl : Int) (rs : List ICMPReturn) :
    ∀ (m : MTR) (s : HopStatistic), m.Statistic ttl = some s →
      recordAfter m ttl rs = mergeAll s rs := by
  induction rs with
  | nil =>
    intro m s hs
    simp [recordAfter, registerAll, mergeAll, hs]
  | cons r rs ih =>
    intro m s hs
    cases hm : mergeInto s r with
    | none => simp [recordAfter, registerAll, registerStatistic, mergeAll, hs, hm]
    | some t =>
      have := ih { m with Statistic := Function.update m.Statistic ttl (some t) } t (by simp)
      simpa [recordAfter, registerAll, registerStatistic, mergeAll, hs, hm] using this

/-- On an orchestrator without a record for the TTL, a non-empty sequence of
merges is the sequence of updates of the record created for the first one. -/
theorem recordAfter_fresh (m : MTR) (ttl : Int) (r : ICMPReturn) (rs : List ICMPReturn)
    (hm : m.Statistic ttl = none) :
    recordAfter m ttl (r :: rs) = mergeAll (newRecord m ttl r) (r :: rs) := by
  cases hq : mergeInto (newRecord m ttl r) r with
  | none => simp [recordAfter, registerAll, registerStatistic, mergeAll, hm, hq]
  | some t =>
    have := recordAfter_of_some ttl rs
      { m with Statistic := Function.update m.Statistic ttl (some t) } t (by simp)
    simpa [recordAfter, registerAll, registerStatistic, mergeAll, hm, hq] using this

theorem take_cons_dropLast {α : Type} (a : α) (l : List α) (k : Nat) (hk : k ≤ l.length) :
    (a :: l.dropLast).take k = (a :: l).take k := by
  cases k with
  | zero => rfl
  | succ k =>
    rw [List.take_succ_cons, List.take_succ_cons, List.dropLast_eq_take, List.take_take]
    congr 2
    omega

/-- The record after a sequence of updates, field by field. -/
theorem mergeAll_fields (rs : List ICMPReturn) :
    ∀ s : HopStatistic, s.Packets.slots ≠ [] →
    ∃ t, mergeAll s rs = some t ∧
      t.Sent = s.Sent + rs.length ∧
      t.Lost = s.Lost + (rs.filter (fun r => !r.Success)).length ∧
      t.SumElapsed = s.SumElapsed + ((rs.filter (fun r => r.Success)).map (fun r => r.Elapsed)).sum ∧
      t.Targets = rs.foldl (fun ts r => addTarget ts r.Addr) s.Targets ∧
      t.Packets.slots = ((rs.reverse.map some) ++ s.Packets.slots).take s.Packets.slots.length ∧
      t.RingBufferSize = s.RingBufferSize ∧
      t.Best = rs.foldl (fun b r =>
        if r.Success = true ∧ (b.Success = false ∨ r.Elapsed < b.Elapsed) then r else b) s.Best ∧
      t.Worst = rs.foldl (fun w r =>
        if r.Success = true ∧ w.Elapsed < r.Elapsed then r else w) s.Worst := by
  induction rs with
  | nil =>
    intro s _
    exact ⟨s, rfl, by simp⟩
  | cons r rs ih =>
    intro s hx
    obtain ⟨u, hu, hSent, hLost, hSum, hTg, hPk, hRb, _, hBest, hWorst⟩ := mergeInto_fields s r hx
    have hux : u.Packets.slots ≠ [] := by rw [hPk]; simp
    have hlen : u.Packets.slots.length = s.Packets.slots.length := by
      rw [hPk, List.length_cons, List.length_dropLast]
      have := List.length_pos.mpr hx
      omega
    obtain ⟨t, ht, tSent, tLost, tSum, tTg, tPk, tRb, tBest, tWorst⟩ := ih u hux
    refine ⟨t, by simp [mergeAll, hu, ht], ?_, ?_, ?_, ?_, ?_, ?_, ?_, ?_⟩
    · rw [tSent, hSent]; simp; omega
    · rw [tLost, hLost]; cases hs : r.Success <;> simp [List.filter_cons, hs, add_assoc, add_comm]
    · rw [tSum, hSum]; cases hs : r.Success <;> simp [List.filter_cons, hs, add_assoc]
    · rw [tTg, hTg]; rfl
    · rw [tPk, hlen, hPk]
      rw [List.reverse_cons, List.map_append, List.append_assoc, List.map_singleton,
        List.singleton_append]
      rw [List.take_append_eq_append_take, List.take_append_eq_append_take]
      congr 1
      exact take_cons_dropLast _ _ _ (by omega)
    · rw [tRb, hRb]
    · rw [tBest, hBest]; rfl
    · rw [tWorst, hWorst]; rfl

/-! ## The list of responding addresses -/

theorem firstSeen_nodup (l : List String) : (firstSeen l).Nodup := by
  induction l with
  | nil => simp [firstSeen]
  | cons a l ih =>
    simp only [firstSeen, List.nodup_cons]
    exact ⟨by simp [List.mem_filter], ih.filter _⟩

theorem mem_firstSeen (l : List String) (b : String) : b ∈ firstSeen l ↔ b ∈ l := by
  induction l with
  | nil => simp [firstSeen]
  | cons a l ih =>
    simp only [firstSeen, List.mem_cons, List.mem_filter, ih]
    by_cases h : b = a <;> simp [h]

theorem addTarget_empty_addr (R : List String) (hR : R ≠ []) : addTarget R "" = R := by
  unfold addTarget
  have : 0 < R.length := List.length_pos.mpr hR
  by_cases h : "" ∈ R <;> simp [h, this]

theorem addTarget_mem (R : List String) (a : String) (h : a ∈ R) : addTarget R a = R := by
  simp [addTarget, h]

theorem addTarget_new (R : List String) (a : String) (hR : R ≠ []) (h0 : "" ∉ R)
    (ha : a ≠ "") (h : a ∉ R) : addTarget R a = R ++ [a] := by
  unfold addTarget
  have hl : 0 < R.length := List.length_pos.mpr hR
  have hf : R.filter (fun t => decide (t ≠ "")) = R := by
    rw [List.filter_eq_self]
    intro x hx
    have : x ≠ "" := fun e => h0 (e ▸ hx)
    simpa using this
  rw [if_neg h, if_pos hl, if_neg ha, hf]

/-- Merging into a list of real addresses appends the new real addresses at their
first appearance. -/
theorem foldl_addTarget_real (l : List String) :
    ∀ R : List String, R ≠ [] → "" ∉ R →
      l.foldl addTarget R =
        R ++ (firstSeen (l.filter (fun a => decide (a ≠ "")))).filter (fun b => decide (b ∉ R)) := by
  induction l with
  | nil => intro R _ _; simp [firstSeen]
  | cons a l ih =>
    intro R hR h0
    rw [List.foldl_cons]
    by_cases ha : a = ""
    · subst ha
      rw [addTarget_empty_addr R hR, ih R hR h0]
      simp [List.filter_cons]
    · by_cases hm : a ∈ R
      · rw [addTarget_mem R a hm, ih R hR h0]
        simp only [List.filter_cons, ha, ne_eq, not_false_eq_true, decide_True, if_true, firstSeen,
          hm, not_true_eq_false, decide_False, List.filter_filter]
        congr 1
        apply List.filter_congr
        intro x _
        by_cases hx : x = a <;> simp [hx, hm]
      · rw [addTarget_new R a hR h0 ha hm, ih (R ++ [a]) (by simp) (by
          simp only [List.mem_append, List.mem_singleton, not_or]
          exact ⟨h0, fun e => ha e.symm⟩)]
        simp only [List.filter_cons, ha, ne_eq, not_false_eq_true, decide_True, if_true, firstSeen,
          hm, List.filter_filter, List.append_assoc, List.singleton_append]
        congr 2
        apply List.filter_congr
        intro x _
        by_cases hx : x = a <;> simp [hx, hm]

theorem foldl_addTarget_single (l : List String) (a : String) (ha : a ≠ "") :
    l.foldl addTarget [a] = firstSeen ((a :: l).filter (fun a => decide (a ≠ ""))) := by
  rw [foldl_addTarget_real l [a] (by simp) (by simpa using fun e => ha e.symm)]
  simp [List.filter_cons, ha, firstSeen]

theorem foldl_addTarget_placeholder (l : List String) :
    l.foldl addTarget [""] =
      if firstSeen (l.filter (fun a => decide (a ≠ ""))) = [] then [""]
      else firstSeen (l.filter (fun a => decide (a ≠ ""))) := by
  induction l with
  | nil => simp [firstSeen]
  | cons a l ih =>
    rw [List.foldl_cons]
    by_cases ha : a = ""
    · subst ha
      rw [addTarget_mem _ _ (by simp), ih]
      simp [List.filter_cons]
    · have h1 : addTarget [""] a = [a] := by
        have : ¬ a ∈ [""] := by simpa using ha
        simp [addTarget, this, ha]
      rw [h1, foldl_addTarget_single l a ha]
      simp [List.filter_cons, ha, firstSeen]

/-- The list built by `addTarget` from nothing over a non-empty sequence of
addresses. -/
theorem foldl_addTarget_nil (a : String) (l : List String) :
    (a :: l).foldl addTarget [] =
      if firstSeen ((a :: l).filter (fun a => decide (a ≠ ""))) = [] then [""]
      else firstSeen ((a :: l).filter (fun a => decide (a ≠ ""))) := by
  have h1 : addTarget [] a = [a] := by simp [addTarget]
  rw [List.foldl_cons, h1]
  by_cases ha : a = ""
  · subst ha
    rw [foldl_addTarget_placeholder]
    simp [List.filter_cons]
  · rw [foldl_addTarget_single l a ha]
    simp [List.filter_cons, ha, firstSeen]

/-! ## The exported sample list -/

theorem foldlM_fillSlot (xs : List (Option ICMPReturn)) :
    ∀ (done : List (Option packet)) (k : Nat), xs.length ≤ k →
      xs.foldlM fillSlot (done ++ List.replicate k none, done.length) =
        some (done ++ xs.map renderSlot ++ List.replicate (k - xs.length) none,
          done.length + xs.length) := by
  induction xs with
  | nil => intro done k _; simp
  | cons x xs ih =>
    intro done k hk
    obtain ⟨j, rfl⟩ : ∃ j, k = j + 1 := ⟨k - 1, by simp at hk; omega⟩
    have hstep : fillSlot (done ++ List.replicate (j + 1) none, done.length) x =
        some ((done ++ [renderSlot x]) ++ List.replicate j none, (done ++ [renderSlot x]).length) := by
      simp [fillSlot, List.replicate_succ]
    rw [List.foldlM_cons, hstep]
    have := ih (done ++ [renderSlot x]) j (by simp at hk; omega)
    simp only [Option.some_bind, Option.bind_eq_bind] at this ⊢
    rw [this]
    simp [Nat.add_assoc, Nat.add_comm 1]

/-- On a record whose ring has no more slots than `RingBufferSize`, `packets` does
not panic: it is the rendering of the ring slots in `Do` order, padded with nil
entries up to `RingBufferSize`. -/
theorem packets_eq (h : HopStatistic) (hle : (h.Packets.slots.length : Int) ≤ h.RingBufferSize) :
    h.packets = some (h.Packets.slots.map renderSlot ++
      List.replicate (h.RingBufferSize.toNat - h.Packets.slots.length) none) := by
  have h0 : ¬ h.RingBufferSize < 0 := by omega
  have := foldlM_fillSlot h.Packets.slots [] h.RingBufferSize.toNat (by omega)
  simp only [List.nil_append, List.length_nil, Nat.zero_add] at this
  simp [HopStatistic.packets, h0, PacketRing.Do, this]

/-! ## The record of a TTL after a sequence of merges -/

/-- On an orchestrator with a positive ring capacity and no record for the TTL, a
non-empty sequence of merges does not panic; the record it leaves, field by
field. -/
theorem recordAfter_fields (m : MTR) (ttl : Int) (r : ICMPReturn) (rs : List ICMPReturn)
    (hn : 1 ≤ m.ringBufferSize) (hm : m.Statistic ttl = none) :
    ∃ t, recordAfter m ttl (r :: rs) = some t ∧
      t.Sent = (r :: rs).length ∧
      t.Lost = ((r :: rs).filter (fun r => !r.Success)).length ∧
      t.SumElapsed = (((r :: rs).filter (fun r => r.Success)).map (fun r => r.Elapsed)).sum ∧
      t.Targets = ((r :: rs).map (fun r => r.Addr)).foldl addTarget [] ∧
      t.Packets.slots = (((r :: rs).reverse.take m.ringBufferSize.toNat).map some) ++
        List.replicate (m.ringBufferSize.toNat - (r :: rs).length) none ∧
      t.RingBufferSize = m.ringBufferSize ∧
      t.Best = (r :: rs).foldl (fun b r =>
        if r.Success = true ∧ (b.Success = false ∨ r.Elapsed < b.Elapsed) then r else b)
        ICMPReturn.zero ∧
      t.Worst = (r :: rs).foldl (fun w r =>
        if r.Success = true ∧ w.Elapsed < r.Elapsed then r else w) r := by
  have hslots : (newRecord m ttl r).Packets.slots = List.replicate m.ringBufferSize.toNat none := rfl
  have hne : (newRecord m ttl r).Packets.slots ≠ [] := by
    rw [hslots]
    intro h
    have := congrArg List.length h
    simp at this
    omega
  obtain ⟨t, ht, tSent, tLost, tSum, tTg, tPk, tRb, tBest, tWorst⟩ :=
    mergeAll_fields (r :: rs) (newRecord m ttl r) hne
  refine ⟨t, by rw [recordAfter_fresh m ttl r rs hm, ht], ?_, ?_, ?_, ?_, ?_, ?_, ?_, ?_⟩
  · simpa [newRecord] using tSent
  · simpa [newRecord] using tLost
  · simpa [newRecord] using tSum
  · rw [tTg, List.foldl_map]; rfl
  · rw [tPk, hslots, List.length_replicate, List.take_append_eq_append_take, List.map_take,
      List.take_replicate]
    simp
  · rw [tRb]; rfl
  · rw [tBest]; rfl
  · rw [tWorst]; rfl

/-- The sample list of the record after a non-empty sequence of merges: the
results read from the last merged one backwards, as many as the ring holds, then
nil entries up to the capacity. -/
theorem packets_after (m : MTR) (ttl : Int) (r : ICMPReturn) (rs : List ICMPReturn)
    (hn : 1 ≤ m.ringBufferSize) (hm : m.Statistic ttl = none) :
    ∃ t, recordAfter m ttl (r :: rs) = some t ∧
      t.packets = some ((((r :: rs).reverse.take m.ringBufferSize.toNat).map
          (fun x => renderSlot (some x))) ++
        List.replicate (m.ringBufferSize.toNat - (r :: rs).length) none) := by
  obtain ⟨t, ht, _, _, _, _, tPk, tRb, _, _⟩ := recordAfter_fields m ttl r rs hn hm
  refine ⟨t, ht, ?_⟩
  have hlen : t.Packets.slots.length = m.ringBufferSize.toNat := by
    rw [tPk]
    simp only [List.length_append, List.length_map, List.length_take, List.length_reverse,
      List.length_replicate]
    omega
  rw [packets_eq t (by rw [hlen, tRb]; omega), hlen, tRb, tPk, List.map_append, List.map_map,
    List.map_replicate, Nat.sub_self, List.replicate_zero, List.append_nil]
  rfl

/-! ## Counters -/

theorem length_filter_success (rs : List ICMPReturn) :
    (rs.length : Int) = ((rs.filter (fun x => !x.Success)).length : Int)
      + ((rs.filter (fun x => x.Success)).length : Int) := by
  induction rs with
  | nil => simp
  | cons r rs ih =>
    cases hs : r.Success <;> simp [List.filter_cons, hs] <;> omega

/-- C1: on an orchestrator with ring capacity at least 1 and no record yet for the
TTL, after every non-empty sequence of merges into that TTL the record has Sent
equal to the number of merges, Lost equal to the number of merged results that
failed, Sent = Lost + number of successful merges and 0 <= Lost <= Sent; one more
merge decreases neither counter. -/
theorem sent_lost_counters (m : MTR) (ttl : Int) (rs : List ICMPReturn) (r : ICMPReturn)
    (hn : 1 ≤ m.ringBufferSize) (hm : m.Statistic ttl = none) (hrs : rs ≠ []) :
    ∃ s t, recordAfter m ttl rs = some s ∧ recordAfter m ttl (rs ++ [r]) = some t ∧
      s.Sent = rs.length ∧
      s.Lost = (rs.filter (fun x => !x.Success)).length ∧
      s.Sent = s.Lost + (rs.filter (fun x => x.Success)).length ∧
      0 ≤ s.Lost ∧ s.Lost ≤ s.Sent ∧
      t.Sent = s.Sent + 1 ∧
      t.Lost = s.Lost + (if r.Success then 0 else 1) ∧
      s.Sent ≤ t.Sent ∧ s.Lost ≤ t.Lost := by
  obtain ⟨a, l, rfl⟩ := List.exists_cons_of_ne_nil hrs
  obtain ⟨s, hs, sSent, sLost, _⟩ := recordAfter_fields m ttl a l hn hm
  obtain ⟨t, ht, tSent, tLost, _⟩ := recordAfter_fields m ttl a (l ++ [r]) hn hm
  have hsplit := length_filter_success (a :: l)
  have hlen : (((a :: (l ++ [r])).length : Nat) : Int) = ((a :: l).length : Int) + 1 := by
    simp
  have hfail : (((a :: (l ++ [r])).filter (fun x => !x.Success)).length : Int) =
      ((a :: l).filter (fun x => !x.Success)).length + (if r.Success then 0 else 1) := by
    rw [← List.cons_append, List.filter_append, List.length_append]
    cases hr : r.Success <;> simp [List.filter_cons, hr]
  have h01 : (0 : Int) ≤ (if r.Success then 0 else 1) := by
    cases r.Success <;> simp
  refine ⟨s, t, hs, ht, sSent, sLost, ?_, ?_, ?_, ?_, ?_, ?_, ?_⟩
  · rw [sSent, sLost]; exact hsplit
  · rw [sLost]; exact Int.natCast_nonneg _
  · rw [sSent, sLost, hsplit]; omega
  · rw [tSent, sSent, hlen]
  · rw [tLost, sLost, hfail]
  · rw [tSent, sSent, hlen]; omega
  · rw [tLost, sLost, hfail]; omega

/-- Witness of C1: the scenario of the spec, followed by one more failure. -/
theorem sent_lost_counters_witness :
    ∃ s t, recordAfter (emptyMTR 5) 1 scenario = some s ∧
      recordAfter (emptyMTR 5) 1 (scenario ++ [failProbe "" 0]) = some t ∧
      s.Sent = scenario.length ∧
      s.Lost = (scenario.filter (fun x => !x.Success)).length ∧
      s.Sent = s.Lost + (scenario.filter (fun x => x.Success)).length ∧
      0 ≤ s.Lost ∧ s.Lost ≤ s.Sent ∧
      t.Sent = s.Sent + 1 ∧
      t.Lost = s.Lost + (if (failProbe "" 0).Success then 0 else 1) ∧
      s.Sent ≤ t.Sent ∧ s.Lost ≤ t.Lost :=
  sent_lost_counters (emptyMTR 5) 1 scenario (failProbe "" 0) (by decide) rfl (by decide)

/-! ## Responding addresses of a record -/

/-- C2: after every non-empty sequence of merges into a TTL without a record (ring
capacity at least 1), Targets has no duplicates and is the list of the distinct
non-empty responding addresses in order of first appearance, or the single empty
placeholder when no merged result carried a non-empty address; the placeholder
never stands beside a real address. In particular an empty-address failure
followed by a real-address success leaves that one address, and two different
real addresses are both kept in first-seen order. -/
theorem targets_first_seen (m : MTR) (ttl : Int) (rs : List ICMPReturn)
    (hn : 1 ≤ m.ringBufferSize) (hm : m.Statistic ttl = none) (hrs : rs ≠ []) :
    (∃ t, recordAfter m ttl rs = some t ∧
      t.Targets.Nodup ∧
      t.Targets = (if realAddrs rs = [] then [""] else firstSeen (realAddrs rs)) ∧
      (t.Targets = [""] ↔ realAddrs rs = []) ∧
      ("" ∈ t.Targets → t.Targets = [""])) ∧
    (∀ (a : String) (d e : Int), a ≠ "" →
      ∃ t, recordAfter m ttl [⟨false, "", d⟩, ⟨true, a, e⟩] = some t ∧ t.Targets = [a]) ∧
    (∀ (a b : String) (x y : Bool) (d e : Int), a ≠ "" → b ≠ "" → a ≠ b →
      ∃ t, recordAfter m ttl [⟨x, a, d⟩, ⟨y, b, e⟩] = some t ∧ t.Targets = [a, b]) := by
  have key : ∀ (r : ICMPReturn) (l : List ICMPReturn),
      ∃ t, recordAfter m ttl (r :: l) = some t ∧
        t.Targets = (if realAddrs (r :: l) = [] then [""] else firstSeen (realAddrs (r :: l))) := by
    intro r l
    obtain ⟨t, ht, _, _, _, tTg, _⟩ := recordAfter_fields m ttl r l hn hm
    refine ⟨t, ht, ?_⟩
    rw [tTg, List.map_cons, foldl_addTarget_nil]
    have hfs : ∀ l : List String, firstSeen l = [] ↔ l = [] := by
      intro l
      cases l <;> simp [firstSeen]
    simp only [realAddrs, List.map_cons, hfs]
  refine ⟨?_, ?_, ?_⟩
  · obtain ⟨r, l, rfl⟩ := List.exists_cons_of_ne_nil hrs
    obtain ⟨t, ht, tTg⟩ := key r l
    have hmem : ∀ a, a ∈ realAddrs (r :: l) → a ≠ "" := by
      intro a ha
      simpa using (List.mem_filter.mp ha).2
    refine ⟨t, ht, ?_, tTg, ?_, ?_⟩
    · rw [tTg]
      split
      · simp
      · exact firstSeen_nodup _
    · rw [tTg]
      constructor
      · intro h
        by_contra hne
        rw [if_neg hne] at h
        have h1 : "" ∈ firstSeen (realAddrs (r :: l)) := by rw [h]; simp
        exact hmem "" ((mem_firstSeen _ _).mp h1) rfl
      · intro h
        rw [if_pos h]
    · rw [tTg]
      split
      · intro _; rfl
      · intro h1
        exact absurd rfl (hmem "" ((mem_firstSeen _ _).mp h1))
  · intro a d e ha
    obtain ⟨t, ht, tTg⟩ := key ⟨false, "", d⟩ [⟨true, a, e⟩]
    refine ⟨t, ht, ?_⟩
    rw [tTg]
    simp [realAddrs, List.filter_cons, ha, firstSeen]
  · intro a b x y d e ha hb hab
    obtain ⟨t, ht, tTg⟩ := key ⟨x, a, d⟩ [⟨y, b, e⟩]
    refine ⟨t, ht, ?_⟩
    rw [tTg]
    simp [realAddrs, List.filter_cons, ha, hb, firstSeen, Ne.symm hab]

/-- Witness of C2: an empty-address failure, then two successes from different
addresses, then the first address again. -/
theorem targets_first_seen_witness :
    ∃ t, recordAfter (emptyMTR 5) 1
        [failProbe "" 0, okProbe "10.0.0.1" 10, okProbe "10.0.0.2" 20, okProbe "10.0.0.1" 30]
        = some t ∧
      t.Targets = ["10.0.0.1", "10.0.0.2"] := by
  obtain ⟨t, ht, _, tTg, _⟩ := (targets_first_seen (emptyMTR 5) 1
    [failProbe "" 0, okProbe "10.0.0.1" 10, okProbe "10.0.0.2" 20, okProbe "10.0.0.1" 30]
    (by decide) rfl (by decide)).1
  exact ⟨t, ht, by rw [tTg]; decide⟩

/-! ## Order and width of the sample list -/

/-- C3, as stated, fails: with ring size 5 and the merges success 10 ms, success
20 ms, success 30 ms, failure, success 50 ms, `packets` is [50, fail, 30, 20, 10]
(the walk starts at the slot written last and meets older results next), not
[10, 20, 30, fail, 50]. -/
theorem packets_scenario_not_insertion_order :
    (recordAfter (emptyMTR 5) 1 scenario).bind HopStatistic.packets =
        some [some ⟨true, 50⟩, some ⟨false, 0⟩, some ⟨true, 30⟩, some ⟨true, 20⟩,
          some ⟨true, 10⟩] ∧
      (recordAfter (emptyMTR 5) 1 scenario).bind HopStatistic.packets ≠
        some [some ⟨true, 10⟩, some ⟨true, 20⟩, some ⟨true, 30⟩, some ⟨false, 0⟩,
          some ⟨true, 50⟩] := by
  obtain ⟨t, ht, hps⟩ := packets_after (emptyMTR 5) 1 (okProbe "10.0.0.1" 10)
    [okProbe "10.0.0.1" 20, okProbe "10.0.0.1" 30, failProbe "" 0, okProbe "10.0.0.1" 50]
    (by decide) rfl
  have hps2 : (recordAfter (emptyMTR 5) 1 scenario).bind HopStatistic.packets =
      some [some ⟨true, 50⟩, some ⟨false, 0⟩, some ⟨true, 30⟩, some ⟨true, 20⟩,
        some ⟨true, 10⟩] := by
    rw [scenario, ht, Option.some_bind, hps]
    norm_num [emptyMTR, okProbe, failProbe, renderSlot, millis]
  rw [hps2]
  exact ⟨rfl, by simp⟩

/-- C3, amended: after every non-empty sequence of merges into a TTL without a
record (ring capacity n at least 1), `packets` lists the merged results that are
still in the ring newest to oldest, starting at the slot written last: position
i, for i below min(number of merges, n), holds the rendering of the merge that is
i places before the last one, and the positions from there up to n are nil. -/
theorem packets_newest_first (m : MTR) (ttl : Int) (rs : List ICMPReturn)
    (hn : 1 ≤ m.ringBufferSize) (hm : m.Statistic ttl = none) (hrs : rs ≠ []) :
    ∃ t ps, recordAfter m ttl rs = some t ∧ t.packets = some ps ∧
      (∀ i, i < min rs.length m.ringBufferSize.toNat →
        ∃ x, rs[rs.length - 1 - i]? = some x ∧ ps[i]? = some (renderSlot (some x))) ∧
      (∀ i, min rs.length m.ringBufferSize.toNat ≤ i → i < m.ringBufferSize.toNat →
        ps[i]? = some none) := by
  obtain ⟨r, l, rfl⟩ := List.exists_cons_of_ne_nil hrs
  obtain ⟨t, ht, hps⟩ := packets_after m ttl r l hn hm
  refine ⟨t, _, ht, hps, ?_, ?_⟩
  swap
  · intro i hi1 hi2
    have hlen : (List.map (fun x => renderSlot (some x))
        (List.take m.ringBufferSize.toNat (r :: l).reverse)).length =
        min (r :: l).length m.ringBufferSize.toNat := by
      simp only [List.length_map, List.length_take, List.length_reverse]
      exact min_comm _ _
    rw [List.getElem?_append_right (by rw [hlen]; exact hi1), hlen, List.getElem?_replicate]
    have : i - min (r :: l).length m.ringBufferSize.toNat
        < m.ringBufferSize.toNat - (r :: l).length := by
      rcases le_total (r :: l).length m.ringBufferSize.toNat with h | h
      · rw [min_eq_left h] at hi1 ⊢; omega
      · rw [min_eq_right h] at hi1; omega
    rw [if_pos this]
  intro i hi
  have hi1 : i < (r :: l).length := lt_of_lt_of_le hi (min_le_left _ _)
  have hi2 : i < m.ringBufferSize.toNat := lt_of_lt_of_le hi (min_le_right _ _)
  have hidx : (r :: l).length - 1 - i < (r :: l).length := by omega
  refine ⟨(r :: l)[(r :: l).length - 1 - i], List.getElem?_eq_getElem hidx, ?_⟩
  have hlen : i < (List.map (fun x => renderSlot (some x))
      (List.take m.ringBufferSize.toNat (r :: l).reverse)).length := by
    simp only [List.length_map, List.length_take, List.length_reverse]
    omega
  rw [List.getElem?_append_left hlen, List.getElem?_map, List.getElem?_take_of_lt hi2,
    List.getElem?_reverse hi1, List.getElem?_eq_getElem hidx]
  rfl

/-- Witness of C3 (amended): the scenario of the spec in a ring of 5 slots. -/
theorem packets_newest_first_witness :
    ∃ t ps, recordAfter (emptyMTR 5) 1 scenario = some t ∧ t.packets = some ps ∧
      (∀ i, i < min scenario.length (emptyMTR 5).ringBufferSize.toNat →
        ∃ x, scenario[scenario.length - 1 - i]? = some x ∧
          ps[i]? = some (renderSlot (some x))) ∧
      (∀ i, min scenario.length (emptyMTR 5).ringBufferSize.toNat ≤ i →
        i < (emptyMTR 5).ringBufferSize.toNat → ps[i]? = some none) :=
  packets_newest_first (emptyMTR 5) 1 scenario (by decide) rfl (by decide)

theorem reduceOption_map_some {α β : Type} (g : α → β) (l : List α) :
    (l.map (fun x => some (g x))).reduceOption = l.map g := by
  induction l with
  | nil => rfl
  | cons a l ih => simp [List.reduceOption_cons_of_some, ih]

theorem reduceOption_replicate_nil {β : Type} (k : Nat) :
    (List.replicate k (none : Option β)).reduceOption = [] := by
  induction k with
  | zero => rfl
  | succ k ih => simp [List.replicate_succ, List.reduceOption_cons_of_none, ih]

theorem count_none_map_some {α β : Type} [DecidableEq β] (g : α → β) (l : List α) :
    (l.map (fun x => some (g x))).count none = 0 := by
  rw [List.count_eq_zero]
  simp

/-- C4: after every sequence of m >= 1 merges into a TTL without a record (ring
capacity n at least 1), `packets` has exactly n positions; exactly min(m, n) of
them are non-empty, and they are the renderings of the last min(m, n) merged
results (a success as true with its elapsed time in ms, a failure as false with
0), the older results being gone; the other n - min(m, n) positions are nil. -/
theorem packets_width (m : MTR) (ttl : Int) (rs : List ICMPReturn)
    (hn : 1 ≤ m.ringBufferSize) (hm : m.Statistic ttl = none) (hrs : rs ≠ []) :
    ∃ t ps, recordAfter m ttl rs = some t ∧ t.packets = some ps ∧
      ps.length = m.ringBufferSize.toNat ∧
      ps.reduceOption.length = min rs.length m.ringBufferSize.toNat ∧
      ps.reduceOption = ((rs.drop (rs.length - min rs.length m.ringBufferSize.toNat)).map
        (fun r => if r.Success then packet.mk true (millis r.Elapsed)
          else packet.mk false 0)).reverse ∧
      ps.count none = m.ringBufferSize.toNat - min rs.length m.ringBufferSize.toNat := by
  obtain ⟨r, l, rfl⟩ := List.exists_cons_of_ne_nil hrs
  obtain ⟨t, ht, hps⟩ := packets_after m ttl r l hn hm
  generalize hL : r :: l = L at *
  generalize hN : m.ringBufferSize.toNat = n at *
  have hrender : (fun x => renderSlot (some x)) = fun x => some
      (if x.Success then packet.mk true (millis x.Elapsed) else packet.mk false 0) := by
    funext x
    cases hx : x.Success <;> simp [renderSlot, hx]
  have hred : (List.map (fun x => renderSlot (some x)) (List.take n L.reverse) ++
      List.replicate (n - L.length) none).reduceOption =
      ((L.drop (L.length - min L.length n)).map
        (fun r => if r.Success then packet.mk true (millis r.Elapsed)
          else packet.mk false 0)).reverse := by
    rw [List.reduceOption_append, hrender, reduceOption_map_some, reduceOption_replicate_nil,
      List.append_nil, List.take_reverse, List.map_reverse]
    congr 3
    omega
  refine ⟨t, _, ht, hps, ?_, ?_, hred, ?_⟩
  · simp only [List.length_append, List.length_map, List.length_take, List.length_reverse,
      List.length_replicate]
    omega
  · rw [hred]
    simp only [List.length_reverse, List.length_map, List.length_drop]
    omega
  · rw [List.count_append, hrender, count_none_map_some, List.count_replicate_self]
    omega

/-- Witness of C4: the five merges of the scenario into a ring of 2 slots. -/
theorem packets_width_witness :
    ∃ t ps, recordAfter (emptyMTR 2) 1 scenario = some t ∧ t.packets = some ps ∧
      ps.length = (emptyMTR 2).ringBufferSize.toNat ∧
      ps.reduceOption.length = min scenario.length (emptyMTR 2).ringBufferSize.toNat ∧
      ps.reduceOption =
        ((scenario.drop (scenario.length - min scenario.length (emptyMTR 2).ringBufferSize.toNat)).map
          (fun r => if r.Success then packet.mk true (millis r.Elapsed)
            else packet.mk false 0)).reverse ∧
      ps.count none =
        (emptyMTR 2).ringBufferSize.toNat - min scenario.length (emptyMTR 2).ringBufferSize.toNat :=
  packets_width (emptyMTR 2) 1 scenario (by decide) rfl (by decide)

/-! ## Average and loss -/

theorem millis_eq (d : Int) : millis d = (d : ℚ) / 1000000 := by
  unfold millis
  ring

/-- C5: after every non-empty sequence of merges into a TTL without a record (ring
capacity at least 1), SumElapsed is the sum of the elapsed durations of the
successful merged results and Avg() is that sum, in milliseconds, divided by the
number of successful merges, 0 when there are none; the ring capacity does not
enter. For the merges 10, 20, 30, failure, 50 ms the average is 27.5 whatever the
capacity. -/
theorem avg_all_time_mean (m : MTR) (ttl : Int) (rs : List ICMPReturn)
    (hn : 1 ≤ m.ringBufferSize) (hm : m.Statistic ttl = none) (hrs : rs ≠ []) :
    (∃ t, recordAfter m ttl rs = some t ∧
      t.SumElapsed = ((rs.filter (fun r => r.Success)).map (fun r => r.Elapsed)).sum ∧
      t.Avg = (if (rs.filter (fun r => r.Success)).length = 0 then 0
        else ((((rs.filter (fun r => r.Success)).map (fun r => r.Elapsed)).sum : Int) : ℚ)
          / 1000000 / ((rs.filter (fun r => r.Success)).length : ℚ))) ∧
    (∀ n : Int, 1 ≤ n →
      (recordAfter (emptyMTR n) 1 scenario).map HopStatistic.Avg = some (55 / 2)) := by
  have key : ∀ (m : MTR) (ttl : Int) (rs : List ICMPReturn), 1 ≤ m.ringBufferSize →
      m.Statistic ttl = none → rs ≠ [] →
      ∃ t, recordAfter m ttl rs = some t ∧
        t.SumElapsed = ((rs.filter (fun r => r.Success)).map (fun r => r.Elapsed)).sum ∧
        t.Avg = (if (rs.filter (fun r => r.Success)).length = 0 then 0
          else ((((rs.filter (fun r => r.Success)).map (fun r => r.Elapsed)).sum : Int) : ℚ)
            / 1000000 / ((rs.filter (fun r => r.Success)).length : ℚ)) := by
    intro m ttl rs hn hm hrs
    obtain ⟨r, l, rfl⟩ := List.exists_cons_of_ne_nil hrs
    obtain ⟨t, ht, tSent, tLost, tSum, _⟩ := recordAfter_fields m ttl r l hn hm
    refine ⟨t, ht, tSum, ?_⟩
    have hdiff : t.Sent - t.Lost = (((r :: l).filter (fun r => r.Success)).length : Int) := by
      rw [tSent, tLost, length_filter_success (r :: l)]
      omega
    unfold HopStatistic.Avg
    rw [hdiff, tSum, millis_eq]
    by_cases h0 : ((r :: l).filter (fun r => r.Success)).length = 0
    · simp [h0]
    · have : ¬ ((((r :: l).filter (fun r => r.Success)).length : Int) = 0) := by
        exact_mod_cast h0
      rw [if_pos this, if_neg h0]
      norm_cast
  refine ⟨key m ttl rs hn hm hrs, ?_⟩
  intro n h1
  obtain ⟨t, ht, _, tAvg⟩ := key (emptyMTR n) 1 scenario h1 rfl (by decide)
  rw [ht, Option.map_some', tAvg]
  norm_num [scenario, okProbe, failProbe, List.filter_cons]

/-- Witness of C5: the scenario of the spec in a ring of 2 slots, so that three of
the four successes have left the ring. -/
theorem avg_all_time_mean_witness :
    (recordAfter (emptyMTR 2) 1 scenario).map HopStatistic.Avg = some (55 / 2) :=
  (avg_all_time_mean (emptyMTR 2) 1 scenario (by decide) rfl (by decide)).2 2 (by decide)

/-- C6: on the zero value of `HopStatistic` (Sent = 0, Lost = 0) `Loss()` is the
quotient 0 / 0, that is `NaN`, and not 0: the division is not guarded. -/
theorem loss_zero_sent_is_nan :
    zeroHop.Sent = 0 ∧ zeroHop.Loss = F64.nan ∧ zeroHop.Loss ≠ F64.fin 0 := by
  have h : zeroHop.Loss = F64.nan := by
    simp [HopStatistic.Loss, zeroHop, F64.ofInt, F64.div, F64.mul]
  exact ⟨rfl, h, by rw [h]; simp⟩

/-! ## Standard deviation -/

theorem stdevLoop_foldl (avg : ℚ) (ps : List (Option packet)) :
    ∀ acc : ℚ × Int,
      ps.foldl (stdevStep avg) acc =
      (acc.1 + ((ps.filterMap packetMs).map (fun x => (x - avg) ^ 2)).sum,
        acc.2 + ((ps.filterMap packetMs).length : Int)) := by
  induction ps with
  | nil => intro acc; simp
  | cons p ps ih =>
    intro acc
    rw [List.foldl_cons, ih]
    cases p with
    | none => simp [stdevStep, packetMs]
    | some p =>
      cases hp : p.Success
      · simp [stdevStep, packetMs, hp]
      · simp only [stdevStep, packetMs, hp, not_true_eq_false, if_false, if_true,
          List.filterMap_cons, List.map_cons, List.sum_cons, List.length_cons, abs_mul_abs_self]
        refine Prod.ext ?_ ?_
        · simp only; ring
        · simp only; push_cast; ring

theorem filterMap_render (xs : List (Option ICMPReturn)) (k : Nat) :
    (xs.map renderSlot ++ List.replicate k none).filterMap packetMs = xs.filterMap slotMs := by
  have hrep : (List.replicate k (none : Option packet)).filterMap packetMs = [] := by
    induction k with
    | zero => rfl
    | succ k ih => simp [List.replicate_succ, ih, packetMs]
  rw [List.filterMap_append, hrep, List.append_nil, List.filterMap_map]
  apply List.filterMap_congr
  intro x _
  cases x with
  | none => rfl
  | some x => cases hx : x.Success <;> simp [renderSlot, packetMs, slotMs, hx]

theorem sum_sq_nonneg (l : List ℚ) (avg : ℚ) : 0 ≤ (l.map (fun x => (x - avg) ^ 2)).sum := by
  apply List.sum_nonneg
  intro x hx
  obtain ⟨y, _, rfl⟩ := List.mem_map.mp hx
  positivity

/-- C7: on every record whose ring has no more slots than `RingBufferSize` (so
that `packets` does not panic; every record built by `registerStatistic` is so),
`Stdev()` is the population standard deviation over the successful results
present in the ring: with S the response times of the ring slots that hold a
success, the square of `Stdev()` is the sum over S of (x - Avg())^2 divided by
the size of S, and `Stdev()` is 0 when S is empty. For ring size 5 and the merges
10, 20, 30, failure, 50 ms the square is 218.75. -/
theorem stdev_over_ring (h : HopStatistic)
    (hle : (h.Packets.slots.length : Int) ≤ h.RingBufferSize) :
    h.Stdev = some (Sqrt64.root (if ringSuccessMs h = [] then 0
      else ((ringSuccessMs h).map (fun x => (x - h.Avg) ^ 2)).sum / (ringSuccessMs h).length)) ∧
    (recordAfter (emptyMTR 5) 1 scenario).bind HopStatistic.Stdev =
      some (Sqrt64.root (875 / 4)) := by
  have key : ∀ h : HopStatistic, (h.Packets.slots.length : Int) ≤ h.RingBufferSize →
      h.Stdev = some (Sqrt64.root (if ringSuccessMs h = [] then 0
        else ((ringSuccessMs h).map (fun x => (x - h.Avg) ^ 2)).sum
          / (ringSuccessMs h).length)) := by
    intro h hle
    unfold HopStatistic.Stdev
    rw [packets_eq h hle]
    simp only [stdevLoop]
    rw [stdevLoop_foldl, filterMap_render]
    change _ = some (Sqrt64.root (if ringSuccessMs h = [] then 0
        else ((ringSuccessMs h).map (fun x => (x - h.Avg) ^ 2)).sum / (ringSuccessMs h).length))
    have hS : List.filterMap slotMs h.Packets.slots = ringSuccessMs h := rfl
    rw [hS]
    by_cases h0 : ringSuccessMs h = []
    · simp [h0, F64.div, F64.ofInt, F64.Sqrt, Sqrt64.IsNaN]
    · have hlen : ((ringSuccessMs h).length : ℚ) ≠ 0 := by
        have := List.length_pos.mpr h0
        exact_mod_cast this.ne'
      have hnn : ¬ ((ringSuccessMs h).map (fun x => (x - h.Avg) ^ 2)).sum
          / ((ringSuccessMs h).length : ℚ) < 0 := by
        have h1 := sum_sq_nonneg (ringSuccessMs h) h.Avg
        have h2 : (0 : ℚ) ≤ ((ringSuccessMs h).length : ℚ) := by positivity
        exact not_lt.mpr (div_nonneg h1 h2)
      simp [h0, F64.div, F64.ofInt, F64.Sqrt, Sqrt64.IsNaN, hlen, hnn]
  refine ⟨key h hle, ?_⟩
  obtain ⟨t, ht, tSent, tLost, tSum, _, tPk, tRb, _⟩ := recordAfter_fields (emptyMTR 5) 1
    (okProbe "10.0.0.1" 10)
    [okProbe "10.0.0.1" 20, okProbe "10.0.0.1" 30, failProbe "" 0, okProbe "10.0.0.1" 50]
    (by decide) rfl
  have hS : ringSuccessMs t = [50, 30, 20, 10] := by
    unfold ringSuccessMs
    rw [tPk]
    simp only [emptyMTR, okProbe, failProbe, show Int.toNat 5 = 5 from rfl, List.reverse_cons,
      List.reverse_nil, List.nil_append, List.cons_append, List.take, List.map, List.length_cons,
      List.length_nil, Nat.sub_self, List.replicate, List.append_nil, List.filterMap_cons,
      List.filterMap_nil, slotMs, millis]
    norm_num
  have hA : t.Avg = 55 / 2 := by
    unfold HopStatistic.Avg
    rw [tSent, tLost, tSum]
    norm_num [okProbe, failProbe, millis, List.filter_cons]
  have hlen : (t.Packets.slots.length : Int) ≤ t.RingBufferSize := by
    rw [tPk, tRb]
    decide
  rw [scenario, ht, Option.some_bind, key t hlen, hS, hA, if_neg (by simp)]
  norm_num

/-- Witness of C7: a ring of 3 slots with successes of 30 and 10 ms and an empty
slot, mean 20 ms; the square of the deviation is (10^2 + 10^2) / 2 = 100. -/
theorem stdev_over_ring_witness : sampleHop.Stdev = some (Sqrt64.root 100) := by
  have hS : ringSuccessMs sampleHop = [30, 10] := by
    simp only [ringSuccessMs, sampleHop, okProbe, List.filterMap_cons, List.filterMap_nil,
      slotMs, millis]
    norm_num
  have hA : sampleHop.Avg = 20 := by
    norm_num [HopStatistic.Avg, sampleHop, zeroHop, millis]
  rw [(stdev_over_ring sampleHop (by decide)).1, hS, hA, if_neg (by simp)]
  norm_num

/-! ## Best and worst -/

/-- The fold of the update of Best from a successful result `b`: the value reached
is the earliest entry of minimal elapsed time among `b` and the successes that
follow. -/
theorem best_fold_of_success (rs : List ICMPReturn) :
    ∀ b : ICMPReturn, b.Success = true →
      ∃ pre post,
        b :: rs.filter (fun r => r.Success) =
          pre ++ (rs.foldl (fun b r =>
            if r.Success = true ∧ (b.Success = false ∨ r.Elapsed < b.Elapsed) then r else b) b)
            :: post ∧
        (∀ x ∈ pre, (rs.foldl (fun b r =>
            if r.Success = true ∧ (b.Success = false ∨ r.Elapsed < b.Elapsed) then r else b)
            b).Elapsed < x.Elapsed) ∧
        (∀ x ∈ post, (rs.foldl (fun b r =>
            if r.Success = true ∧ (b.Success = false ∨ r.Elapsed < b.Elapsed) then r else b)
            b).Elapsed ≤ x.Elapsed) := by
  induction rs with
  | nil => intro b _; exact ⟨[], [], rfl, by simp, by simp⟩
  | cons r rs ih =>
    intro b hb
    rw [List.foldl_cons]
    rcases Bool.eq_false_or_eq_true r.Success with hr | hr
    swap
    · simpa [List.filter_cons, hr] using ih b hb
    · by_cases hlt : r.Elapsed < b.Elapsed
      · have hstep : (if r.Success = true ∧ (b.Success = false ∨ r.Elapsed < b.Elapsed)
            then r else b) = r := by simp [hr, hlt]
        rw [hstep]
        obtain ⟨pre, post, heq, hpre, hpost⟩ := ih r hr
        refine ⟨b :: pre, post, ?_, ?_, hpost⟩
        · simp only [List.filter_cons, hr, if_true, List.cons_append]
          rw [heq]
        · have hfr : (rs.foldl (fun b r =>
              if r.Success = true ∧ (b.Success = false ∨ r.Elapsed < b.Elapsed) then r else b)
              r).Elapsed ≤ r.Elapsed := by
            have hmem : r ∈ pre ++ (rs.foldl (fun b r =>
                if r.Success = true ∧ (b.Success = false ∨ r.Elapsed < b.Elapsed) then r else b)
                r) :: post := by rw [← heq]; simp
            rcases List.mem_append.mp hmem with h | h
            · exact le_of_lt (hpre r h)
            · rcases List.mem_cons.mp h with h | h
              · rw [← h]
              · exact hpost r h
          intro x hx
          rcases List.mem_cons.mp hx with h | h
          · rw [h]; omega
          · exact hpre x h
      · have hstep : (if r.Success = true ∧ (b.Success = false ∨ r.Elapsed < b.Elapsed)
            then r else b) = b := by simp [hb, hlt]
        rw [hstep]
        obtain ⟨pre, post, heq, hpre, hpost⟩ := ih b hb
        cases pre with
        | nil =>
          simp only [List.nil_append, List.cons.injEq] at heq
          refine ⟨[], r :: rs.filter (fun r => r.Success), ?_, by simp, ?_⟩
          · simp only [List.filter_cons, hr, if_true, List.nil_append]
            rw [← heq.1]
          · intro x hx
            rcases List.mem_cons.mp hx with h | h
            · rw [h, ← heq.1]; omega
            · rw [heq.2] at h; exact hpost x h
        | cons p pre =>
          simp only [List.cons_append, List.cons.injEq] at heq
          refine ⟨b :: r :: pre, post, ?_, ?_, hpost⟩
          · simp only [List.filter_cons, hr, if_true, List.cons_append]
            rw [heq.2]
          · have hb2 := hpre p (by simp)
            rw [← heq.1] at hb2
            intro x hx
            rcases List.mem_cons.mp hx with h | h
            · rw [h]; exact hb2
            · rcases List.mem_cons.mp h with h | h
              · rw [h]; omega
              · exact hpre x (by simp [h])

/-- The fold of the update of Best from a value that is no success: it stays
until the first success, then is the earliest success of minimal elapsed time. -/
theorem best_fold_of_failure (rs : List ICMPReturn) :
    ∀ b : ICMPReturn, b.Success = false →
      (rs.filter (fun r => r.Success) = [] → rs.foldl (fun b r =>
          if r.Success = true ∧ (b.Success = false ∨ r.Elapsed < b.Elapsed) then r else b) b = b) ∧
      (rs.filter (fun r => r.Success) ≠ [] → ∃ pre post,
        rs.filter (fun r => r.Success) =
          pre ++ (rs.foldl (fun b r =>
            if r.Success = true ∧ (b.Success = false ∨ r.Elapsed < b.Elapsed) then r else b) b)
            :: post ∧
        (∀ x ∈ pre, (rs.foldl (fun b r =>
            if r.Success = true ∧ (b.Success = false ∨ r.Elapsed < b.Elapsed) then r else b)
            b).Elapsed < x.Elapsed) ∧
        (∀ x ∈ post, (rs.foldl (fun b r =>
            if r.Success = true ∧ (b.Success = false ∨ r.Elapsed < b.Elapsed) then r else b)
            b).Elapsed ≤ x.Elapsed)) := by
  induction rs with
  | nil => intro b _; simp
  | cons r rs ih =>
    intro b hb
    rw [List.foldl_cons]
    rcases Bool.eq_false_or_eq_true r.Success with hr | hr
    swap
    · simpa [List.filter_cons, hr] using ih b hb
    · have hstep : (if r.Success = true ∧ (b.Success = false ∨ r.Elapsed < b.Elapsed)
          then r else b) = r := by simp [hr, hb]
      rw [hstep]
      refine ⟨by simp [List.filter_cons, hr], fun _ => ?_⟩
      simpa [List.filter_cons, hr] using best_fold_of_success rs r hr

/-- The fold of the update of Worst: the elapsed time reached is at least the one
it started from and at least the one of every success met. -/
theorem worst_fold_bounds (rs : List ICMPReturn) :
    ∀ w : ICMPReturn,
      w.Elapsed ≤ (rs.foldl (fun w r =>
        if r.Success = true ∧ w.Elapsed < r.Elapsed then r else w) w).Elapsed ∧
      (∀ x ∈ rs, x.Success = true → x.Elapsed ≤ (rs.foldl (fun w r =>
        if r.Success = true ∧ w.Elapsed < r.Elapsed then r else w) w).Elapsed) := by
  induction rs with
  | nil => intro w; simp
  | cons r rs ih =>
    intro w
    rw [List.foldl_cons]
    obtain ⟨h1, h2⟩ := ih (if r.Success = true ∧ w.Elapsed < r.Elapsed then r else w)
    have hw : w.Elapsed ≤ (if r.Success = true ∧ w.Elapsed < r.Elapsed then r else w).Elapsed := by
      split
      · rename_i h; exact le_of_lt h.2
      · exact le_refl _
    have hr : r.Success = true →
        r.Elapsed ≤ (if r.Success = true ∧ w.Elapsed < r.Elapsed then r else w).Elapsed := by
      intro hs
      by_cases hlt : w.Elapsed < r.Elapsed
      · simp [hs, hlt]
      · simp only [hs, hlt, and_false, if_false]; omega
    refine ⟨le_trans hw h1, ?_⟩
    intro x hx hxs
    rcases List.mem_cons.mp hx with h | h
    · rw [h] at hxs ⊢; exact le_trans (hr hxs) h1
    · exact h2 x h hxs

/-- C8: at TTL 1 of an orchestrator with ring size 5, a failed probe that carries
100 ms merged first and a successful probe of 10 ms merged next leave Worst equal
to the failed probe (Success false, 100 ms), although the only success took 10
ms: the record is created with Worst set to the first result whatever its
outcome. With the same two results merged in the other order Worst is the
success. -/
theorem worst_keeps_failed_first_probe :
    (recordAfter (emptyMTR 5) 1 [failProbe "" 100, okProbe "10.0.0.1" 10]).map
        (fun t => t.Worst) = some (failProbe "" 100) ∧
      (recordAfter (emptyMTR 5) 1 [failProbe "" 100, okProbe "10.0.0.1" 10]).map
        (fun t => (t.Worst.Success, t.Worst.Elapsed)) = some (false, 100000000) ∧
      (recordAfter (emptyMTR 5) 1 [okProbe "10.0.0.1" 10, failProbe "" 100]).map
        (fun t => t.Worst) = some (okProbe "10.0.0.1" 10) := by
  decide

/-- C9: after every non-empty sequence of merges into a TTL without a record (ring
capacity at least 1), Best.Success is false exactly when no successful result has
been merged (Best is then the zero value); when a success has been merged, Best is
the earliest successful merged result of minimal elapsed time: in the list of the
successful results every one before Best has a larger elapsed time and none after
it has a smaller one. -/
theorem best_earliest_minimum (m : MTR) (ttl : Int) (rs : List ICMPReturn)
    (hn : 1 ≤ m.ringBufferSize) (hm : m.Statistic ttl = none) (hrs : rs ≠ []) :
    ∃ t, recordAfter m ttl rs = some t ∧
      (t.Best.Success = false ↔ rs.filter (fun r => r.Success) = []) ∧
      (rs.filter (fun r => r.Success) = [] → t.Best = ICMPReturn.zero) ∧
      (rs.filter (fun r => r.Success) ≠ [] → ∃ pre post,
        rs.filter (fun r => r.Success) = pre ++ t.Best :: post ∧
        (∀ x ∈ pre, t.Best.Elapsed < x.Elapsed) ∧
        (∀ x ∈ post, t.Best.Elapsed ≤ x.Elapsed)) := by
  obtain ⟨r, l, rfl⟩ := List.exists_cons_of_ne_nil hrs
  obtain ⟨t, ht, _, _, _, _, _, _, tBest, _⟩ := recordAfter_fields m ttl r l hn hm
  obtain ⟨h1, h2⟩ := best_fold_of_failure (r :: l) ICMPReturn.zero rfl
  rw [← tBest] at h1 h2
  refine ⟨t, ht, ⟨?_, ?_⟩, h1, h2⟩
  · intro hf
    by_contra hne
    obtain ⟨pre, post, heq, _⟩ := h2 hne
    have hmem : t.Best ∈ (r :: l).filter (fun r => r.Success) := by rw [heq]; simp
    have := (List.mem_filter.mp hmem).2
    simp [hf] at this
  · intro he
    rw [h1 he]
    rfl

/-- Witness of C9: two successes of 10 ms from different addresses after one of 20
ms; Best is the first of the two. -/
theorem best_earliest_minimum_witness :
    ∃ t, recordAfter (emptyMTR 5) 1
        [okProbe "10.0.0.1" 20, okProbe "10.0.0.2" 10, failProbe "" 0, okProbe "10.0.0.3" 10]
        = some t ∧
      (t.Best.Success = false ↔
        [okProbe "10.0.0.1" 20, okProbe "10.0.0.2" 10, failProbe "" 0,
          okProbe "10.0.0.3" 10].filter (fun r => r.Success) = []) ∧
      ([okProbe "10.0.0.1" 20, okProbe "10.0.0.2" 10, failProbe "" 0,
          okProbe "10.0.0.3" 10].filter (fun r => r.Success) = [] → t.Best = ICMPReturn.zero) ∧
      ([okProbe "10.0.0.1" 20, okProbe "10.0.0.2" 10, failProbe "" 0,
          okProbe "10.0.0.3" 10].filter (fun r => r.Success) ≠ [] → ∃ pre post,
        [okProbe "10.0.0.1" 20, okProbe "10.0.0.2" 10, failProbe "" 0,
          okProbe "10.0.0.3" 10].filter (fun r => r.Success) = pre ++ t.Best :: post ∧
        (∀ x ∈ pre, t.Best.Elapsed < x.Elapsed) ∧
        (∀ x ∈ post, t.Best.Elapsed ≤ x.Elapsed)) :=
  best_earliest_minimum (emptyMTR 5) 1
    [okProbe "10.0.0.1" 20, okProbe "10.0.0.2" 10, failProbe "" 0, okProbe "10.0.0.3" 10]
    (by decide) rfl (by decide)

/-- C10: after every sequence of merges into a TTL without a record (ring capacity
at least 1) that contains a successful result, Best.Elapsed <= Worst.Elapsed. -/
theorem best_le_worst (m : MTR) (ttl : Int) (rs : List ICMPReturn)
    (hn : 1 ≤ m.ringBufferSize) (hm : m.Statistic ttl = none)
    (hs : ∃ r ∈ rs, r.Success = true) :
    ∃ t, recordAfter m ttl rs = some t ∧ t.Best.Success = true ∧
      t.Best.Elapsed ≤ t.Worst.Elapsed := by
  obtain ⟨x, hx, hxs⟩ := hs
  have hrs : rs ≠ [] := List.ne_nil_of_mem hx
  obtain ⟨r, l, rfl⟩ := List.exists_cons_of_ne_nil hrs
  obtain ⟨t, ht, _, _, _, _, _, _, tBest, tWorst⟩ := recordAfter_fields m ttl r l hn hm
  have hne : (r :: l).filter (fun r => r.Success) ≠ [] :=
    List.ne_nil_of_mem (List.mem_filter.mpr ⟨hx, hxs⟩)
  obtain ⟨pre, post, heq, _, _⟩ := (best_fold_of_failure (r :: l) ICMPReturn.zero rfl).2 hne
  rw [← tBest] at heq
  have hmem : t.Best ∈ (r :: l).filter (fun r => r.Success) := by rw [heq]; simp
  obtain ⟨hb1, hb2⟩ := List.mem_filter.mp hmem
  have hw := (worst_fold_bounds (r :: l) r).2 t.Best hb1 hb2
  rw [← tWorst] at hw
  exact ⟨t, ht, hb2, hw⟩

/-- Witness of C10: a failure that carries 100 ms, then successes of 10 and 5 ms. -/
theorem best_le_worst_witness :
    ∃ t, recordAfter (emptyMTR 5) 1
        [failProbe "" 100, okProbe "10.0.0.1" 10, okProbe "10.0.0.1" 5] = some t ∧
      t.Best.Success = true ∧ t.Best.Elapsed ≤ t.Worst.Elapsed :=
  best_le_worst (emptyMTR 5) 1 [failProbe "" 100, okProbe "10.0.0.1" 10, okProbe "10.0.0.1" 5]
    (by decide) rfl ⟨okProbe "10.0.0.1" 10, by decide, rfl⟩

/-! ## Failed probes, totality and independence of the TTLs -/

theorem registerStatistic_eq (m : MTR) (ttl : Int) (r : ICMPReturn) :
    registerStatistic m ttl r =
      (mergeInto ((m.Statistic ttl).getD (newRecord m ttl r)) r).map
        (fun s => ({ m with Statistic := Function.update m.Statistic ttl (some s) }, s)) := by
  unfold registerStatistic
  cases m.Statistic ttl <;> simp only [Option.getD] <;> split <;> simp_all

/-- The ring of the record created for a TTL is nil exactly when the capacity is
not positive. -/
theorem newRecord_slots_ne (m : MTR) (ttl : Int) (r : ICMPReturn) (hn : 1 ≤ m.ringBufferSize) :
    (newRecord m ttl r).Packets.slots ≠ [] := by
  intro h
  have h1 : (newRecord m ttl r).Packets.slots = List.replicate m.ringBufferSize.toNat none := rfl
  have := congrArg List.length h
  rw [h1] at this
  simp at this
  omega

/-- C11: on an orchestrator with ring size 5 and no record at TTL 1, the merge of
a failed probe that carries 100 ms creates the record with Sent = 1, Lost = 1,
Last the probe, SumElapsed = 0 and Best undefined, but with Worst equal to the
failed probe (Success false, 100 ms): Worst is derived from the failed probe. -/
theorem failed_first_merge_sets_worst :
    (registerStatistic (emptyMTR 5) 1 (failProbe "" 100)).map
        (fun p => (p.2.Sent, p.2.Lost, p.2.Last, p.2.SumElapsed, p.2.Best)) =
      some (1, 1, failProbe "" 100, 0, ICMPReturn.zero) ∧
    (registerStatistic (emptyMTR 5) 1 (failProbe "" 100)).map (fun p => p.2.Worst) =
      some (failProbe "" 100) ∧
    (registerStatistic (emptyMTR 5) 1 (failProbe "" 100)).map (fun p => p.2.Worst) ≠
      some ICMPReturn.zero := by
  decide

/-- On a record that exists and whose ring is not nil, the merge of a failed
probe adds one to Sent and to Lost, sets Last, and leaves SumElapsed, Best and
Worst as they were. -/
theorem failed_merge_existing (m : MTR) (ttl : Int) (r : ICMPReturn) (s : HopStatistic)
    (hr : r.Success = false) (hs : m.Statistic ttl = some s) (hx : s.Packets.slots ≠ []) :
    ∃ m1 t, registerStatistic m ttl r = some (m1, t) ∧ m1.Statistic ttl = some t ∧
      t.Sent = s.Sent + 1 ∧ t.Lost = s.Lost + 1 ∧ t.Last = r ∧
      t.SumElapsed = s.SumElapsed ∧ t.Best = s.Best ∧ t.Worst = s.Worst := by
  obtain ⟨t, ht, tSent, tLost, tSum, _, _, _, tLast, tBest, tWorst⟩ := mergeInto_fields s r hx
  refine ⟨{ m with Statistic := Function.update m.Statistic ttl (some t) }, t, ?_, ?_, tSent, ?_,
    tLast, ?_, ?_, ?_⟩
  · rw [registerStatistic_eq, hs, Option.getD_some, ht, Option.map_some']
  · simp
  · simpa [hr] using tLost
  · simpa [hr] using tSum
  · simpa [hr] using tBest
  · simpa [hr] using tWorst

/-- A merge into a record whose ring is not nil, or into a TTL without a record on
an orchestrator of positive capacity, does not panic; it changes the map at that
TTL only and leaves there a record whose ring is not nil. -/
theorem registerStatistic_total (m : MTR) (ttl : Int) (r : ICMPReturn)
    (hn : 1 ≤ m.ringBufferSize) (hw : ∀ s, m.Statistic ttl = some s → s.Packets.slots ≠ []) :
    ∃ s, registerStatistic m ttl r =
        some ({ m with Statistic := Function.update m.Statistic ttl (some s) }, s) ∧
      s.Packets.slots ≠ [] := by
  have hx : ((m.Statistic ttl).getD (newRecord m ttl r)).Packets.slots ≠ [] := by
    cases hs : m.Statistic ttl with
    | none => exact newRecord_slots_ne m ttl r hn
    | some s => exact hw s hs
  obtain ⟨t, ht, _, _, _, _, tPk, _⟩ := mergeInto_fields _ r hx
  refine ⟨t, ?_, ?_⟩
  · rw [registerStatistic_eq, ht, Option.map_some']
  · rw [tPk]; simp

/-- On an orchestrator of positive capacity whose records all have a ring that is
not nil, every sequence of merges runs to its end and leaves such an
orchestrator. -/
theorem registerSeq_total (ms : List (Int × ICMPReturn)) :
    ∀ m : MTR, 1 ≤ m.ringBufferSize →
      (∀ t s, m.Statistic t = some s → s.Packets.slots ≠ []) →
      ∃ m1, registerSeq m ms = some m1 ∧ m1.ringBufferSize = m.ringBufferSize ∧
        (∀ t s, m1.Statistic t = some s → s.Packets.slots ≠ []) := by
  induction ms with
  | nil => intro m _ hw; exact ⟨m, rfl, rfl, hw⟩
  | cons p ps ih =>
    intro m hn hw
    obtain ⟨s, hs, hsx⟩ := registerStatistic_total m p.1 p.2 hn (hw p.1)
    obtain ⟨m1, h1, h2, h3⟩ := ih { m with Statistic := Function.update m.Statistic p.1 (some s) }
      hn (by
        intro t u hu
        by_cases ht : t = p.1
        · subst ht
          simp only [Function.update_same, Option.some.injEq] at hu
          rw [← hu]; exact hsx
        · simp only [Function.update_noteq ht] at hu
          exact hw t u hu)
    refine ⟨m1, ?_, h2, h3⟩
    simp only [registerSeq, hs]
    exact h1

/-- C14, as stated, fails: on an orchestrator of ring capacity 0 the ring of a new
record is nil and the merge panics at `s.Packets.Prev()`. -/
theorem merge_panics_at_capacity_zero :
    (registerStatistic (emptyMTR 0) 1 (okProbe "10.0.0.1" 10)).isNone = true := by
  decide

/-- C14, amended: on an orchestrator constructed with a ring capacity of at least
1 (no record yet), every sequence of merges runs to its end, and after it every
merge of every result into every TTL completes without a panic and returns the
updated record, which is the record of that TTL in the map. -/
theorem merge_total_positive_capacity (m : MTR) (ms : List (Int × ICMPReturn)) (ttl : Int)
    (r : ICMPReturn) (hn : 1 ≤ m.ringBufferSize) (hm : ∀ t, m.Statistic t = none) :
    ∃ m1, registerSeq m ms = some m1 ∧
      ∃ m2 s, registerStatistic m1 ttl r = some (m2, s) ∧ m2.Statistic ttl = some s := by
  obtain ⟨m1, h1, h2, h3⟩ := registerSeq_total ms m hn (by
    intro t s hs
    rw [hm t] at hs
    cases hs)
  obtain ⟨s, hs, _⟩ := registerStatistic_total m1 ttl r (by rw [h2]; exact hn) (h3 ttl)
  exact ⟨m1, h1, _, s, hs, by simp⟩

/-- Witness of C14 (amended): capacity 1, two merges into TTLs 1 and 2, then a
merge into TTL 1. -/
theorem merge_total_positive_capacity_witness :
    ∃ m1, registerSeq (emptyMTR 1) [(1, okProbe "10.0.0.1" 10), (2, failProbe "" 0)] = some m1 ∧
      ∃ m2 s, registerStatistic m1 1 (failProbe "" 0) = some (m2, s) ∧
        m2.Statistic 1 = some s :=
  merge_total_positive_capacity (emptyMTR 1) [(1, okProbe "10.0.0.1" 10), (2, failProbe "" 0)] 1
    (failProbe "" 0) (by decide) (fun _ => rfl)

/-- The record of a TTL after a non-empty sequence of merges into it is fixed by the
record the orchestrator had for that TTL, its timeout and its ring capacity. -/
theorem recordAfter_cons (m : MTR) (ttl : Int) (r : ICMPReturn) (rs : List ICMPReturn) :
    recordAfter m ttl (r :: rs) =
      mergeAll ((m.Statistic ttl).getD (newRecord m ttl r)) (r :: rs) := by
  cases hs : m.Statistic ttl with
  | none => rw [recordAfter_fresh m ttl r rs hs]; rfl
  | some s => rw [recordAfter_of_some ttl (r :: rs) m s hs]; rfl

theorem recordAfter_update (m : MTR) (t u : Int) (s : HopStatistic) (rs : List ICMPReturn)
    (htu : t ≠ u) :
    recordAfter { m with Statistic := Function.update m.Statistic u (some s) } t rs =
      recordAfter m t rs := by
  cases rs with
  | nil => simp [recordAfter, registerAll, Function.update_noteq htu]
  | cons r rs =>
    rw [recordAfter_cons, recordAfter_cons]
    simp only [Function.update_noteq htu]
    rfl

/-- C18: merges into two different TTLs commute (the map from TTL to record is the
same in either order, a panic in one order being a panic in the other), a merge
into a TTL leaves the record of every other TTL as it was, and after a sequence
of merges into several TTLs that runs to its end the record of a TTL is the one
that the merges addressed to that TTL alone leave. -/
theorem merges_commute (m : MTR) (t1 t2 : Int) (r1 r2 : ICMPReturn) (h12 : t1 ≠ t2) :
    ((registerStatistic m t1 r1).bind (fun p => registerStatistic p.1 t2 r2)).map
        (fun p => p.1.Statistic) =
      ((registerStatistic m t2 r2).bind (fun p => registerStatistic p.1 t1 r1)).map
        (fun p => p.1.Statistic) ∧
    (∀ m1 s, registerStatistic m t1 r1 = some (m1, s) →
      ∀ t, t ≠ t1 → m1.Statistic t = m.Statistic t) ∧
    (∀ (ms : List (Int × ICMPReturn)) (m1 : MTR), registerSeq m ms = some m1 →
      ∀ t, m1.Statistic t =
        recordAfter m t ((ms.filter (fun p => decide (p.1 = t))).map Prod.snd)) := by
  refine ⟨?_, ?_, ?_⟩
  · rw [registerStatistic_eq m t1 r1, registerStatistic_eq m t2 r2]
    cases h1 : mergeInto ((m.Statistic t1).getD (newRecord m t1 r1)) r1 with
    | none =>
      cases h2 : mergeInto ((m.Statistic t2).getD (newRecord m t2 r2)) r2 with
      | none => rfl
      | some s2 =>
        simp only [Option.map_none', Option.none_bind, Option.map_some', Option.some_bind,
          registerStatistic_eq, Function.update_noteq h12]
        have : newRecord { m with Statistic := Function.update m.Statistic t2 (some s2) } t1 r1
            = newRecord m t1 r1 := rfl
        rw [this, h1]
        rfl
    | some s1 =>
      have e1 : newRecord { m with Statistic := Function.update m.Statistic t1 (some s1) } t2 r2
          = newRecord m t2 r2 := rfl
      cases h2 : mergeInto ((m.Statistic t2).getD (newRecord m t2 r2)) r2 with
      | none =>
        simp only [Option.map_none', Option.none_bind, Option.map_some', Option.some_bind,
          registerStatistic_eq, Function.update_noteq h12.symm, e1, h2]
      | some s2 =>
        have e2 : newRecord { m with Statistic := Function.update m.Statistic t2 (some s2) } t1 r1
            = newRecord m t1 r1 := rfl
        simp only [Option.map_some', Option.some_bind, registerStatistic_eq,
          Function.update_noteq h12.symm, Function.update_noteq h12, e1, e2, h1, h2]
        rw [Function.update_comm h12]
  · intro m1 s h t ht
    rw [registerStatistic_eq] at h
    cases hq : mergeInto ((m.Statistic t1).getD (newRecord m t1 r1)) r1 with
    | none => rw [hq] at h; cases h
    | some u =>
      rw [hq, Option.map_some'] at h
      have hm1 : m1 = { m with Statistic := Function.update m.Statistic t1 (some u) } := by
        injection h with h
        exact (congrArg Prod.fst h).symm
      rw [hm1]
      simp [Function.update_noteq ht]
  · intro ms
    induction ms generalizing m with
    | nil => intro m1 h t; cases h; rfl
    | cons p ps ih =>
      intro m1 h t
      rw [registerSeq] at h
      rw [registerStatistic_eq] at h
      cases hq : mergeInto ((m.Statistic p.1).getD (newRecord m p.1 p.2)) p.2 with
      | none => rw [hq] at h; cases h
      | some u =>
        rw [hq] at h
        simp only [Option.map_some'] at h
        have := ih _ m1 h t
        rw [this]
        by_cases hp : p.1 = t
        · subst hp
          simp only [List.filter_cons, decide_True, if_true, List.map_cons]
          simp only [recordAfter, registerAll, registerStatistic_eq, hq, Option.map_some']
        · simp only [List.filter_cons, hp, decide_False, Bool.false_eq_true, if_false]
          exact recordAfter_update m t p.1 u _ (Ne.symm hp)

/-- Witness of C18: a success merged into TTL 1 and a failure merged into TTL 2,
on an orchestrator without records. -/
theorem merges_commute_witness :
    ((registerStatistic (emptyMTR 5) 1 (okProbe "10.0.0.1" 10)).bind
        (fun p => registerStatistic p.1 2 (failProbe "" 0))).map (fun p => p.1.Statistic) =
      ((registerStatistic (emptyMTR 5) 2 (failProbe "" 0)).bind
        (fun p => registerStatistic p.1 1 (okProbe "10.0.0.1" 10))).map
        (fun p => p.1.Statistic) :=
  (merges_commute (emptyMTR 5) 1 2 (okProbe "10.0.0.1" 10) (failProbe "" 0) (by decide)).1

/-! ## Reverse-name lookup -/

theorem cacheGet_cacheSet (c : List (String × String)) (k v k2 : String) :
    cacheGet (cacheSet c k v) k2 = if k = k2 then some v else cacheGet c k2 := by
  simp [cacheSet, cacheGet]

/-- C17: on a record with an initialised name cache and an index inside Targets,
`lookupAddr` returns "???" and leaves the record as it is when the address at the
index is the empty placeholder; otherwise it returns the raw address when
ptrLookup is false, the cached name when ptrLookup is true and the address is
cached, and when ptrLookup is true and the address is not cached the first name
of the resolver, or the raw address if the resolver fails or has no name; in each
of these cases the cache afterwards maps the address to the string returned and
is as before on every other key. -/
theorem lookupAddr_contract (resolver : String → Except String (List String))
    (h : HopStatistic) (ptrLookup : Bool) (index : Int) (c : List (String × String))
    (a : String) (hc : h.dnsCache = some c) (hi : 0 ≤ index)
    (ha : h.Targets[index.toNat]? = some a) :
    (a = "" → h.lookupAddr resolver ptrLookup index = some ("???", h)) ∧
    (a ≠ "" → ∃ name c2,
      h.lookupAddr resolver ptrLookup index = some (name, { h with dnsCache := some c2 }) ∧
      cacheGet c2 a = some name ∧
      (∀ k, k ≠ a → cacheGet c2 k = cacheGet c k) ∧
      (ptrLookup = false → name = a) ∧
      (ptrLookup = true → ∀ n, cacheGet c a = some n → name = n) ∧
      (ptrLookup = true → cacheGet c a = none →
        ∀ n ns, resolver a = Except.ok (n :: ns) → name = n) ∧
      (ptrLookup = true → cacheGet c a = none →
        (resolver a = Except.ok [] ∨ ∃ e, resolver a = Except.error e) → name = a)) := by
  have hi2 : ¬ index < 0 := by omega
  constructor
  · intro h0
    simp [HopStatistic.lookupAddr, hi2, ha, h0]
  · intro h0
    have hset : ∀ name k, k ≠ a → cacheGet (cacheSet c a name) k = cacheGet c k := by
      intro name k hk
      rw [cacheGet_cacheSet, if_neg (Ne.symm hk)]
    have hget : ∀ name, cacheGet (cacheSet c a name) a = some name := by
      intro name
      rw [cacheGet_cacheSet, if_pos rfl]
    cases ptrLookup with
    | false =>
      refine ⟨a, cacheSet c a a, ?_, hget a, hset a, fun _ => rfl, ?_, ?_, ?_⟩
      · simp [HopStatistic.lookupAddr, hi2, ha, h0, hc]
      all_goals intro hp; cases hp
    | true =>
      cases hg : cacheGet c a with
      | some n =>
        refine ⟨n, cacheSet c a n, ?_, hget n, hset n, ?_, ?_, ?_, ?_⟩
        · simp [HopStatistic.lookupAddr, hi2, ha, h0, hc, hg]
        · intro hp; cases hp
        · intro _ n2 hn2; cases hn2; rfl
        · intro _ hn; cases hn
        · intro _ hn; cases hn
      | none =>
        cases hr : resolver a with
        | error e =>
          refine ⟨a, cacheSet c a a, ?_, hget a, hset a, fun _ => rfl, ?_, ?_, ?_⟩
          · simp [HopStatistic.lookupAddr, hi2, ha, h0, hc, hg, hr]
          · intro _ n hn; cases hn
          · intro _ _ n ns hn; cases hn
          · intro _ _ _; rfl
        | ok names =>
          cases names with
          | nil =>
            refine ⟨a, cacheSet c a a, ?_, hget a, hset a, fun _ => rfl, ?_, ?_, ?_⟩
            · simp [HopStatistic.lookupAddr, hi2, ha, h0, hc, hg, hr]
            · intro _ n hn; cases hn
            · intro _ _ n ns hn; cases hn
            · intro _ _ _; rfl
          | cons n ns =>
            refine ⟨n, cacheSet c a n, ?_, hget n, hset n, ?_, ?_, ?_, ?_⟩
            · simp [HopStatistic.lookupAddr, hi2, ha, h0, hc, hg, hr]
            · intro hp; cases hp
            · intro _ n2 hn2; cases hn2
            · intro _ _ n2 ns2 hn2
              cases hn2
              rfl
            · intro _ _ hn
              rcases hn with hn | ⟨e, hn⟩ <;> cases hn

/-- Witness of C17: an address that is not cached yet, looked up with ptrLookup on
through a resolver that knows two names for it; the first one is returned and
cached. -/
theorem lookupAddr_contract_witness :
    ∃ c2, cachedHop.lookupAddr oneResolver true 0 =
        some ("gw.example.net.", { cachedHop with dnsCache := some c2 }) ∧
      cacheGet c2 "10.0.0.1" = some "gw.example.net." := by
  obtain ⟨name, c2, h1, h2, _, _, _, h6, _⟩ :=
    (lookupAddr_contract oneResolver cachedHop true 0 [] "10.0.0.1" rfl (by decide) rfl).2
      (by decide)
  have hn : name = "gw.example.net." := h6 rfl rfl _ _ rfl
  subst hn
  exact ⟨c2, h1, h2⟩

/-- With the nil cache, `lookupAddr` panics at the write into the cache whenever
the address at the index is not the placeholder. -/
theorem lookupAddr_nil_cache (resolver : String → Except String (List String))
    (h : HopStatistic) (ptrLookup : Bool) (index : Int) (a : String)
    (hc : h.dnsCache = none) (hi : 0 ≤ index) (ha : h.Targets[index.toNat]? = some a)
    (h0 : a ≠ "") : h.lookupAddr resolver ptrLookup index = none := by
  have hi2 : ¬ index < 0 := by omega
  simp [HopStatistic.lookupAddr, hi2, ha, h0, hc]

/-- C19: the record that `registerStatistic` creates at TTL 1 (ring size 5) for a
success answered by 10.0.0.1 has the nil name cache, and `lookupAddr` at index 0
of its Targets panics at the write into that cache, for both values of ptrLookup
and every resolver; only on a record whose address is the empty placeholder does
it return (the string "???"). -/
theorem lookupAddr_panics_on_created_record
    (resolver : String → Except String (List String)) (ptrLookup : Bool) :
    (registerStatistic (emptyMTR 5) 1 (okProbe "10.0.0.1" 10)).map
        (fun p => (p.2.Targets, p.2.dnsCache)) = some (["10.0.0.1"], none) ∧
    (registerStatistic (emptyMTR 5) 1 (okProbe "10.0.0.1" 10)).bind
        (fun p => p.2.lookupAddr resolver ptrLookup 0) = none ∧
    ((registerStatistic (emptyMTR 5) 1 (failProbe "" 0)).bind
        (fun p => p.2.lookupAddr resolver ptrLookup 0)).map Prod.fst = some "???" := by
  obtain ⟨s, hs, _⟩ := registerStatistic_total (emptyMTR 5) 1 (okProbe "10.0.0.1" 10)
    (by decide) (by intro s h; cases h)
  have hT : (registerStatistic (emptyMTR 5) 1 (okProbe "10.0.0.1" 10)).map
      (fun p => (p.2.Targets, p.2.dnsCache)) = some (["10.0.0.1"], none) := by decide
  refine ⟨hT, ?_, ?_⟩
  · rw [hs] at hT ⊢
    simp only [Option.map_some', Option.some.injEq, Prod.mk.injEq] at hT
    rw [Option.some_bind]
    exact lookupAddr_nil_cache resolver s ptrLookup 0 "10.0.0.1" hT.2 (by decide)
      (by rw [hT.1]; rfl) (by decide)
  · obtain ⟨u, hu, _⟩ := registerStatistic_total (emptyMTR 5) 1 (failProbe "" 0)
      (by decide) (by intro s h; cases h)
    have hU : (registerStatistic (emptyMTR 5) 1 (failProbe "" 0)).map
        (fun p => p.2.Targets) = some [""] := by decide
    rw [hu] at hU ⊢
    simp only [Option.map_some', Option.some.injEq] at hU
    simp [HopStatistic.lookupAddr, hU]

/-! ## Construction -/

/-- C15: `NewMTR` returns an error (and no orchestrator) exactly when the address
is not a literal IP and the host lookup fails or returns no address; otherwise it
returns an orchestrator whose Address is the literal itself, or the first address
resolved, and whose Statistic map is empty. -/
theorem newMTR_contract (parseIP isIPv4 : String → Bool)
    (lookupHost : String → Except String (List String)) (addr srcAddr : String)
    (timeout interval hopsleep maxHops maxUnknownHops ringBufferSize : Int) (ptr : Bool) :
    ((∃ e, NewMTR parseIP isIPv4 lookupHost addr srcAddr timeout interval hopsleep maxHops
        maxUnknownHops ringBufferSize ptr = Except.error e) ↔
      (parseIP addr = false ∧
        ((∃ e, lookupHost addr = Except.error e) ∨ lookupHost addr = Except.ok []))) ∧
    (parseIP addr = true → ∃ c, NewMTR parseIP isIPv4 lookupHost addr srcAddr timeout interval
        hopsleep maxHops maxUnknownHops ringBufferSize ptr = Except.ok c ∧
      c.Address = addr ∧ (∀ t, c.Statistic t = none) ∧ c.ringBufferSize = ringBufferSize ∧
      c.maxHops = maxHops) ∧
    (parseIP addr = false → ∀ first rest, lookupHost addr = Except.ok (first :: rest) →
      ∃ c, NewMTR parseIP isIPv4 lookupHost addr srcAddr timeout interval
        hopsleep maxHops maxUnknownHops ringBufferSize ptr = Except.ok c ∧
      c.Address = first ∧ (∀ t, c.Statistic t = none) ∧ c.ringBufferSize = ringBufferSize ∧
      c.maxHops = maxHops) := by
  refine ⟨?_, ?_, ?_⟩
  · cases hp : parseIP addr with
    | true => simp [NewMTR, hp]
    | false =>
      cases hl : lookupHost addr with
      | error e => simp [NewMTR, hp, hl]
      | ok addrs =>
        cases addrs with
        | nil => simp [NewMTR, hp, hl]
        | cons a as => simp [NewMTR, hp, hl]
  · intro hp
    exact ⟨_, by simp only [NewMTR, hp]; rfl, rfl, fun _ => rfl, rfl, rfl⟩
  · intro hp first rest hl
    exact ⟨_, by simp only [NewMTR, hp, hl]; rfl, rfl, fun _ => rfl, rfl, rfl⟩

/-- Witness of C15: a host name that resolves to two addresses (the first one
becomes the destination) and a host name that resolves to none (an error). -/
theorem newMTR_contract_witness :
    (∃ c, NewMTR exampleParseIP exampleParseIP exampleLookupHost "gw.example.net" "" 1 1 1 30 10
        5 false = Except.ok c ∧ c.Address = "10.0.0.1" ∧ (∀ t, c.Statistic t = none)) ∧
    (∃ e, NewMTR exampleParseIP exampleParseIP exampleLookupHost "empty.example.net" "" 1 1 1 30
        10 5 false = Except.error e) := by
  constructor
  · obtain ⟨c, h1, h2, h3, _⟩ := (newMTR_contract exampleParseIP exampleParseIP
      exampleLookupHost "gw.example.net" "" 1 1 1 30 10 5 false).2.2 (by decide) "10.0.0.1"
      ["10.0.0.2"] (by simp [exampleLookupHost])
    exact ⟨c, h1, h2, h3⟩
  · exact (newMTR_contract exampleParseIP exampleParseIP exampleLookupHost "empty.example.net"
      "" 1 1 1 30 10 5 false).1.mpr ⟨by decide, Or.inr (by simp [exampleLookupHost])⟩

/-! ## A discovery round -/

/-- The body of the loop of `discover` on an orchestrator of positive capacity
whose records have rings that are not nil. -/
theorem discoverStep_total (probe : Int → ICMPReturn) (id : Int) (m0 : MTR)
    (S : Int → Option HopStatistic) (ttl : Int) (hn : 1 ≤ m0.ringBufferSize)
    (hw : ∀ t s, S t = some s → s.Packets.slots ≠ []) :
    ∃ u, mergeInto ((S ttl).getD (newRecord m0 ttl (probe ttl))) (probe ttl) = some u ∧
      u.Packets.slots ≠ [] ∧
      discoverStep probe id { m0 with Statistic := S } ttl =
        some ({ m0 with Statistic := Function.update S ttl (some (annotate m0 id u)) },
          decide ((probe ttl).Addr = m0.Address)) := by
  obtain ⟨u, hu, hux⟩ := registerStatistic_total { m0 with Statistic := S } ttl (probe ttl) hn
    (hw ttl)
  have hu2 := hu
  rw [registerStatistic_eq] at hu2
  cases hq : mergeInto ((S ttl).getD (newRecord m0 ttl (probe ttl))) (probe ttl) with
  | none =>
    have : mergeInto (((({ m0 with Statistic := S } : MTR).Statistic ttl)).getD
        (newRecord { m0 with Statistic := S } ttl (probe ttl))) (probe ttl) = none := hq
    rw [this] at hu2
    cases hu2
  | some v =>
    have hv : mergeInto (((({ m0 with Statistic := S } : MTR).Statistic ttl)).getD
        (newRecord { m0 with Statistic := S } ttl (probe ttl))) (probe ttl) = some v := hq
    rw [hv, Option.map_some'] at hu2
    have huv : v = u := by
      injection hu2 with hu2
      exact congrArg Prod.snd hu2
    subst huv
    refine ⟨v, rfl, hux, ?_⟩
    simp only [discoverStep, hu, Function.update_idem]
    rfl

/-- The loop of `discover` over `n` TTLs from `a` on: it ends, having probed the
TTLs `a, ..., a + j - 1`, where `a + j - 1` is the first TTL answered by the
destination, or `j = n` when there is none; each of these TTLs received one merge
and the other records are untouched. -/
theorem discoverLoop_spec (probe : Int → ICMPReturn) (id : Int) (m0 : MTR)
    (hn : 1 ≤ m0.ringBufferSize) :
    ∀ (n : Nat) (a : Int) (S : Int → Option HopStatistic) (issued : List Int),
      (∀ t s, S t = some s → s.Packets.slots ≠ []) →
      ∃ (S1 : Int → Option HopStatistic) (j : Nat),
        discoverLoop probe id (ttlsFrom a n) { m0 with Statistic := S } issued =
          some ({ m0 with Statistic := S1 }, issued ++ ttlsFrom a j) ∧
        j ≤ n ∧
        (∀ i : Nat, i + 1 < j → (probe (a + i)).Addr ≠ m0.Address) ∧
        ((j = n ∧ ∀ i : Nat, i < n → (probe (a + i)).Addr ≠ m0.Address) ∨
          (1 ≤ j ∧ (probe (a + ((j : Int) - 1))).Addr = m0.Address)) ∧
        (∀ t, (t < a ∨ a + j ≤ t) → S1 t = S t) ∧
        (∀ t, a ≤ t → t < a + j →
          ∃ u, mergeInto ((S t).getD (newRecord m0 t (probe t))) (probe t) = some u ∧
            S1 t = some (annotate m0 id u)) := by
  intro n
  induction n with
  | zero =>
    intro a S issued _
    refine ⟨S, 0, by simp [ttlsFrom, discoverLoop], le_refl _, ?_, Or.inl ⟨rfl, ?_⟩, ?_, ?_⟩
    · intro i hi; omega
    · intro i hi; omega
    · intro t _; rfl
    · intro t h1 h2; simp at h2; omega
  | succ n ih =>
    intro a S issued hw
    obtain ⟨u, hu, hux, hstep⟩ := discoverStep_total probe id m0 S a hn hw
    by_cases hit : (probe a).Addr = m0.Address
    · refine ⟨Function.update S a (some (annotate m0 id u)), 1, ?_, by omega, ?_,
        Or.inr ⟨le_refl _, by simpa using hit⟩, ?_, ?_⟩
      · simp [ttlsFrom, discoverLoop, hstep, hit]
      · intro i hi; omega
      · intro t ht
        have : t ≠ a := by omega
        simp [Function.update_noteq this]
      · intro t h1 h2
        have : t = a := by push_cast at h2; omega
        subst this
        exact ⟨u, hu, by simp⟩
    · have hw2 : ∀ t s, Function.update S a (some (annotate m0 id u)) t = some s →
          s.Packets.slots ≠ [] := by
        intro t s hs
        by_cases ht : t = a
        · subst ht
          simp only [Function.update_same, Option.some.injEq] at hs
          rw [← hs]; exact hux
        · rw [Function.update_noteq ht] at hs
          exact hw t s hs
      obtain ⟨S1, j, hloop, hj, hmiss, hend, hframe, hrec⟩ :=
        ih (a + 1) (Function.update S a (some (annotate m0 id u))) (issued ++ [a]) hw2
      refine ⟨S1, j + 1, ?_, by omega, ?_, ?_, ?_, ?_⟩
      · simp only [ttlsFrom, discoverLoop, hstep, hit, decide_False, Bool.false_eq_true,
          if_false, hloop, List.append_assoc, List.singleton_append]
      · intro i hi
        cases i with
        | zero => simpa using hit
        | succ i =>
          have := hmiss i (by omega)
          have e : a + 1 + (i : Int) = a + ((i + 1 : Nat) : Int) := by push_cast; ring
          rw [e] at this
          exact this
      · rcases hend with ⟨h1, h2⟩ | ⟨h1, h2⟩
        · refine Or.inl ⟨by omega, ?_⟩
          intro i hi
          cases i with
          | zero => simpa using hit
          | succ i =>
            have := h2 i (by omega)
            have e : a + 1 + (i : Int) = a + ((i + 1 : Nat) : Int) := by push_cast; ring
            rw [e] at this
            exact this
        · refine Or.inr ⟨by omega, ?_⟩
          have e : a + 1 + ((j : Int) - 1) = a + (((j + 1 : Nat) : Int) - 1) := by
            push_cast; ring
          rw [e] at h2
          exact h2
      · intro t ht
        have hta : t ≠ a := by push_cast at ht; omega
        rw [hframe t (by push_cast at ht; omega), Function.update_noteq hta]
      · intro t h1 h2
        by_cases hta : t = a
        · subst hta
          refine ⟨u, hu, ?_⟩
          rw [hframe t (by omega), Function.update_same]
        · obtain ⟨v, hv, hv2⟩ := hrec t (by omega) (by push_cast at h2; omega)
          rw [Function.update_noteq hta] at hv
          exact ⟨v, hv, hv2⟩

theorem ttlsFrom_length (n : Nat) : ∀ a : Int, (ttlsFrom a n).length = n := by
  induction n with
  | zero => intro a; rfl
  | succ n ih => intro a; simp [ttlsFrom, ih]

theorem ttlsFrom_getElem (n : Nat) :
    ∀ (a : Int) (i : Nat), i < n → (ttlsFrom a n)[i]? = some (a + i) := by
  induction n with
  | zero => intro a i hi; omega
  | succ n ih =>
    intro a i hi
    cases i with
    | zero => simp [ttlsFrom]
    | succ i =>
      simp only [ttlsFrom, List.getElem?_cons_succ]
      rw [ih (a + 1) i (by omega)]
      congr 1
      push_cast
      ring

/-- C12: on an orchestrator of ring capacity at least 1 whose records have rings
that are not nil, with the transport a function from the TTL to the result, a
discovery round ends for every transport and every maxHops, and it probes and
merges the TTLs 1, 2, ..., s in this order, one result each, where s is the
smallest TTL in 1..maxHops-1 whose responding address is the destination, or
maxHops-1 when there is none; the record of every other TTL is untouched. -/
theorem discover_round (probe : Int → ICMPReturn) (id : Int) (m : MTR)
    (hn : 1 ≤ m.ringBufferSize) (hw : ∀ t s, m.Statistic t = some s → s.Packets.slots ≠ []) :
    ∃ (m1 : MTR) (issued : List Int) (s : Int),
      discover probe id m = some (m1, issued) ∧
      issued.length = s.toNat ∧
      (∀ i : Nat, i < issued.length → issued[i]? = some ((i : Int) + 1)) ∧
      ((1 ≤ s ∧ s < m.maxHops ∧ (probe s).Addr = m.Address ∧
          ∀ t, 1 ≤ t → t < s → (probe t).Addr ≠ m.Address) ∨
        (s = m.maxHops - 1 ∧ ∀ t, 1 ≤ t → t < m.maxHops → (probe t).Addr ≠ m.Address)) ∧
      (∀ t, (t < 1 ∨ s < t) → m1.Statistic t = m.Statistic t) ∧
      (∀ t, 1 ≤ t → t ≤ s →
        ∃ u, mergeInto ((m.Statistic t).getD (newRecord m t (probe t))) (probe t) = some u ∧
          m1.Statistic t = some (annotate m id u)) := by
  obtain ⟨S1, j, hloop, hj, hmiss, hend, hframe, hrec⟩ :=
    discoverLoop_spec probe id m hn (m.maxHops - 1).toNat 1 m.Statistic [] hw
  have hidx : ∀ i : Nat, i < (ttlsFrom 1 j).length → (ttlsFrom 1 j)[i]? = some ((i : Int) + 1) := by
    intro i hi
    rw [ttlsFrom_length] at hi
    rw [ttlsFrom_getElem j 1 i hi, add_comm]
  rcases hend with ⟨h1, h2⟩ | ⟨h1, h2⟩
  · refine ⟨{ m with Statistic := S1 }, ttlsFrom 1 j, m.maxHops - 1, ?_, ?_, hidx,
      Or.inr ⟨rfl, ?_⟩, ?_, ?_⟩
    · simpa [discover] using hloop
    · rw [ttlsFrom_length, h1]
    · intro t ht1 ht2
      have := h2 (t - 1).toNat (by omega)
      have e : (1 : Int) + ((t - 1).toNat : Int) = t := by
        rw [Int.toNat_of_nonneg (by omega)]; ring
      rw [e] at this
      exact this
    · intro t ht
      exact hframe t (by omega)
    · intro t ht1 ht2
      exact hrec t ht1 (by omega)
  · refine ⟨{ m with Statistic := S1 }, ttlsFrom 1 j, (j : Int), ?_, ?_, hidx,
      Or.inl ⟨by omega, by omega, ?_, ?_⟩, ?_, ?_⟩
    · simpa [discover] using hloop
    · rw [ttlsFrom_length]; simp
    · have e : (1 : Int) + ((j : Int) - 1) = j := by ring
      rw [e] at h2
      exact h2
    · intro t ht1 ht2
      have := hmiss (t - 1).toNat (by omega)
      have e : (1 : Int) + ((t - 1).toNat : Int) = t := by
        rw [Int.toNat_of_nonneg (by omega)]; ring
      rw [e] at this
      exact this
    · intro t ht
      exact hframe t (by omega)
    · intro t ht1 ht2
      exact hrec t ht1 (by omega)

/-- Witness of C12: the destination answers at TTL 4 and maxHops is 10; the round
probes the TTLs 1 to 4 and no other. -/
theorem discover_round_witness :
    ∃ m1, discover pathProbe 7 pathMTR = some (m1, [1, 2, 3, 4]) ∧
      ∀ t, 4 < t → m1.Statistic t = none := by
  obtain ⟨m1, issued, s, hd, hlen, hidx, hs, hframe, _⟩ :=
    discover_round pathProbe 7 pathMTR (by decide) (by intro t s h; cases h)
  have hs4 : s = 4 := by
    rcases hs with ⟨h1, h2, h3, h4⟩ | ⟨_, h2⟩
    · have h10 : s < 10 := h2
      by_contra hne
      rcases lt_or_gt_of_ne hne with hlt | hgt
      · have : s = 1 ∨ s = 2 ∨ s = 3 := by omega
        rcases this with e | e | e <;> subst e <;> exact absurd h3 (by decide)
      · exact h4 4 (by decide) hgt (by decide)
    · exact absurd rfl (h2 4 (by decide) (by decide))
  subst hs4
  have hiss : issued = [1, 2, 3, 4] := by
    apply List.ext_getElem?
    intro i
    by_cases hi : i < issued.length
    · rw [hidx i hi]
      have : i < 4 := by rw [hlen] at hi; exact hi
      have : i = 0 ∨ i = 1 ∨ i = 2 ∨ i = 3 := by omega
      rcases this with e | e | e | e <;> subst e <;> rfl
    · have h4 : issued.length = 4 := hlen
      rw [List.getElem?_eq_none (by omega), List.getElem?_eq_none (by simp; omega)]
  refine ⟨m1, by rw [hd, hiss], ?_⟩
  intro t ht
  rw [hframe t (Or.inr ht)]
  rfl

/-! ## Panic containment -/

/-- C13: with a single handler, which panics, the shared `err` is nil when the
deferred function runs, `err.Error()` panics inside it and the process ends: no
error value is returned. The same happens to a panicking handler that runs after
handlers that returned nil; only after a handler that returned an error is the
panic turned into the error returned. -/
theorem goroutine_panic_not_contained :
    GoroutineNotPanic [HandlerResult.panics "nil ring"] = none ∧
    GoroutineNotPanic [HandlerResult.returns none, HandlerResult.panics "nil ring",
      HandlerResult.returns none] = none ∧
    GoroutineNotPanic [HandlerResult.returns (some "timeout"), HandlerResult.panics "nil ring"] =
      some (some "panic recovered: nil ring") := by
  decide

/-! ## Concurrent rounds -/

theorem countP_flip_one (l : List Nat) (r : Nat) (p q : Nat → Bool) (hl : l.Nodup)
    (hr : r ∈ l) (hp : p r = false) (hq : q r = true) (hpq : ∀ x, x ≠ r → q x = p x) :
    l.countP q = l.countP p + 1 := by
  induction l with
  | nil => cases hr
  | cons a l ih =>
    rw [List.nodup_cons] at hl
    by_cases ha : a = r
    · subst ha
      have hsame : l.countP q = l.countP p := by
        apply List.countP_congr
        intro x hx
        have : x ≠ a := fun e => hl.1 (e ▸ hx)
        rw [hpq x this]
      simp [List.countP_cons, hp, hq, hsame]
    · have hr2 : r ∈ l := by
        rcases List.mem_cons.mp hr with h | h
        · exact absurd h.symm ha
        · exact h
      simp [List.countP_cons, ih hl.2 hr2, hpq a ha]
      omega

theorem countP_same (l : List Nat) (p q : Nat → Bool) (hpq : ∀ x ∈ l, q x = p x) :
    l.countP q = l.countP p := by
  apply List.countP_congr
  intro x hx
  rw [hpq x hx]

/-- A critical section of a round that has made `c` of its `j` steps: it merges one
result into TTL `1 + c`, whose Sent grows by one, and leaves the round with the
TTLs due after `c + 1` steps. -/
theorem roundStep_active (probe : Int → ICMPReturn) (id : Int) (m0 : MTR) (n j c : Nat)
    (S : Int → Option HopStatistic) (hn : 1 ≤ m0.ringBufferSize) (hjn : j ≤ n)
    (hmiss : ∀ i : Nat, i + 1 < j → (probe (1 + (i : Int))).Addr ≠ m0.Address)
    (hlast : 1 ≤ j → ((probe (1 + ((j : Int) - 1))).Addr = m0.Address ∨ j = n))
    (hw : ∀ t s, S t = some s → s.Packets.slots ≠ []) (hc : c < j) :
    ∃ u, u.Packets.slots ≠ [] ∧
      u.Sent = sentAt { m0 with Statistic := S } (1 + (c : Int)) + 1 ∧
      roundStep probe id { m0 with Statistic := S } (remainingAfter n j c) =
        some ({ m0 with Statistic :=
            Function.update S (1 + (c : Int)) (some (annotate m0 id u)) },
          remainingAfter n j (c + 1)) := by
  obtain ⟨u, hu, hux, hstep⟩ := discoverStep_total probe id m0 S (1 + (c : Int)) hn hw
  have hcur : ((S (1 + (c : Int))).getD
      (newRecord m0 (1 + (c : Int)) (probe (1 + (c : Int))))).Packets.slots ≠ [] := by
    cases hs : S (1 + (c : Int)) with
    | none => exact newRecord_slots_ne m0 _ _ hn
    | some s => exact hw _ s hs
  obtain ⟨v, hv, vSent, _⟩ := mergeInto_fields _ (probe (1 + (c : Int))) hcur
  have huv : v = u := by
    rw [hv] at hu
    exact Option.some.inj hu
  subst huv
  refine ⟨v, hux, ?_, ?_⟩
  · rw [vSent]
    cases hs : S (1 + (c : Int)) with
    | none => simp [sentAt, hs, newRecord]
    | some s => simp [sentAt, hs]
  · have hsplit : remainingAfter n j c =
        (1 + (c : Int)) :: ttlsFrom (1 + (c : Int) + 1) (n - c - 1) := by
      obtain ⟨d, hd⟩ : ∃ d, n - c = d + 1 := ⟨n - c - 1, by omega⟩
      simp only [remainingAfter, hc, if_true, hd, ttlsFrom]
      congr 2
    rw [hsplit]
    simp only [roundStep, hstep]
    congr 2
    by_cases hit : (probe (1 + (c : Int))).Addr = m0.Address
    · have hcj : c + 1 = j := by
        by_contra hne
        exact hmiss c (by omega) hit
      simp [hit, remainingAfter, hcj]
    · have hrest : ttlsFrom (1 + (c : Int) + 1) (n - c - 1) = remainingAfter n j (c + 1) := by
        by_cases hcj : c + 1 < j
        · simp only [remainingAfter, hcj, if_true]
          congr 1
        · have hj : j = c + 1 := by omega
          have : j = n := by
            rcases hlast (by omega) with h | h
            · have e : (1 : Int) + ((j : Int) - 1) = 1 + (c : Int) := by
                rw [hj]; push_cast; ring
              rw [e] at h
              exact absurd h hit
            · exact h
          have hz : n - c - 1 = 0 := by omega
          simp [remainingAfter, hcj, hz, ttlsFrom]
      simp [hit, hrest]

/-- The invariant of an execution of `k` rounds: when round `r` has entered the
critical section `cnt r` times, it has the TTLs due after `cnt r` steps still to
visit, and Sent of TTL `1 + i` is the number of rounds that have entered it more
than `i` times. Every schedule runs to its end and keeps the invariant. -/
theorem runRounds_invariant (probe : Int → ICMPReturn) (ids : Nat → Int) (m0 : MTR)
    (k n j : Nat) (hn : 1 ≤ m0.ringBufferSize) (hjn : j ≤ n)
    (hmiss : ∀ i : Nat, i + 1 < j → (probe (1 + (i : Int))).Addr ≠ m0.Address)
    (hlast : 1 ≤ j → ((probe (1 + ((j : Int) - 1))).Addr = m0.Address ∨ j = n)) :
    ∀ (sched : List Nat) (S : Int → Option HopStatistic) (remaining : Nat → List Int)
      (cnt : Nat → Nat),
      (∀ t s, S t = some s → s.Packets.slots ≠ []) →
      (∀ r, r < k → remaining r = remainingAfter n j (cnt r)) →
      (∀ i : Nat, i < j → sentAt { m0 with Statistic := S } (1 + (i : Int)) =
        (((List.range k).countP (fun r => decide (i < cnt r)) : Nat) : Int)) →
      ∃ S1 remaining1,
        runRounds probe ids k sched { m0 with Statistic := S } remaining =
          some ({ m0 with Statistic := S1 }, remaining1) ∧
        (∀ t s, S1 t = some s → s.Packets.slots ≠ []) ∧
        (∀ r, r < k → remaining1 r = remainingAfter n j (cnt r + sched.count r)) ∧
        (∀ i : Nat, i < j → sentAt { m0 with Statistic := S1 } (1 + (i : Int)) =
          (((List.range k).countP (fun r => decide (i < cnt r + sched.count r)) : Nat) : Int)) := by
  intro sched
  induction sched with
  | nil =>
    intro S remaining cnt hw hrem hsent
    exact ⟨S, remaining, rfl, hw, by simpa using hrem, by simpa using hsent⟩
  | cons r sched ih =>
    intro S remaining cnt hw hrem hsent
    by_cases hr : r < k
    · have hcnt : ∀ x, Function.update cnt r (cnt r + 1) x + sched.count x =
          cnt x + (r :: sched).count x := by
        intro x
        by_cases hx : x = r
        · subst hx
          simp [List.count_cons]
          omega
        · have hx2 : (r == x) = false := by simpa using Ne.symm hx
          simp [Function.update_noteq hx, List.count_cons, hx2]
      by_cases hc : cnt r < j
      · obtain ⟨u, hux, huS, hstep⟩ :=
          roundStep_active probe (ids r) m0 n j (cnt r) S hn hjn hmiss hlast hw hc
        have hw2 : ∀ t s, Function.update S (1 + (cnt r : Int))
            (some (annotate m0 (ids r) u)) t = some s → s.Packets.slots ≠ [] := by
          intro t s hs
          by_cases ht : t = 1 + (cnt r : Int)
          · subst ht
            simp only [Function.update_same, Option.some.injEq] at hs
            rw [← hs]; exact hux
          · rw [Function.update_noteq ht] at hs
            exact hw t s hs
        have hrem2 : ∀ x, x < k →
            Function.update remaining r (remainingAfter n j (cnt r + 1)) x =
              remainingAfter n j (Function.update cnt r (cnt r + 1) x) := by
          intro x hx
          by_cases hxr : x = r
          · subst hxr; simp
          · simp [Function.update_noteq hxr, hrem x hx]
        have hsent2 : ∀ i : Nat, i < j →
            sentAt { m0 with Statistic :=
              (Function.update S (1 + (cnt r : Int)) (some (annotate m0 (ids r) u))) } (1 + (i : Int)) =
            (((List.range k).countP
              (fun x => decide (i < Function.update cnt r (cnt r + 1) x)) : Nat) : Int) := by
          intro i hi
          by_cases hic : i = cnt r
          · subst hic
            have h1 : sentAt { m0 with Statistic :=
                (Function.update S (1 + (cnt r : Int)) (some (annotate m0 (ids r) u))) } (1 + (cnt r : Int)) = u.Sent := by
              simp [sentAt, annotate]
            rw [h1, huS, hsent (cnt r) hi]
            rw [countP_flip_one (List.range k) r (fun x => decide (cnt r < cnt x))
              (fun x => decide (cnt r < Function.update cnt r (cnt r + 1) x))
              (List.nodup_range k) (List.mem_range.mpr hr) (by simp) (by simp)
              (by intro x hx; simp [Function.update_noteq hx])]
            push_cast
            ring
          · have hne : (1 : Int) + (i : Int) ≠ 1 + (cnt r : Int) := by omega
            have h1 : sentAt { m0 with Statistic :=
                (Function.update S (1 + (cnt r : Int)) (some (annotate m0 (ids r) u))) } (1 + (i : Int)) =
                sentAt { m0 with Statistic := S } (1 + (i : Int)) := by
              simp [sentAt, Function.update_noteq hne]
            rw [h1, hsent i hi]
            congr 1
            apply countP_same
            intro x _
            by_cases hx : x = r
            · subst hx
              simp only [Function.update_same]
              have : (i < cnt x + 1) ↔ (i < cnt x) := by omega
              simp [this]
            · simp [Function.update_noteq hx]
        obtain ⟨S1, rem1, hrun, hw1, hrem1, hsent1⟩ := ih _ _ _ hw2 hrem2 hsent2
        refine ⟨S1, rem1, ?_, hw1, ?_, ?_⟩
        · simp only [runRounds, hr, if_true, hrem r hr, hstep]
          exact hrun
        · intro x hx
          rw [hrem1 x hx, hcnt x]
        · intro i hi
          rw [hsent1 i hi]
          simp only [hcnt]
      · have hempty : remaining r = [] := by
          rw [hrem r hr]
          simp [remainingAfter, hc]
        have hrem2 : ∀ x, x < k →
            Function.update remaining r [] x =
              remainingAfter n j (Function.update cnt r (cnt r + 1) x) := by
          intro x hx
          by_cases hxr : x = r
          · subst hxr
            have : ¬ cnt x + 1 < j := by omega
            simp [remainingAfter, this]
          · simp [Function.update_noteq hxr, hrem x hx]
        have hsent2 : ∀ i : Nat, i < j →
            sentAt { m0 with Statistic := S } (1 + (i : Int)) =
            (((List.range k).countP
              (fun x => decide (i < Function.update cnt r (cnt r + 1) x)) : Nat) : Int) := by
          intro i hi
          rw [hsent i hi]
          congr 1
          apply countP_same
          intro x _
          by_cases hx : x = r
          · subst hx
            simp only [Function.update_same]
            have h1 : i < cnt x + 1 := by omega
            have h2 : i < cnt x := by omega
            simp [h1, h2]
          · simp [Function.update_noteq hx]
        obtain ⟨S1, rem1, hrun, hw1, hrem1, hsent1⟩ := ih _ _ _ hw hrem2 hsent2
        refine ⟨S1, rem1, ?_, hw1, ?_, ?_⟩
        · simp only [runRounds, hr, if_true, hempty, roundStep]
          exact hrun
        · intro x hx
          rw [hrem1 x hx, hcnt x]
        · intro i hi
          rw [hsent1 i hi]
          simp only [hcnt]
    · obtain ⟨S1, rem1, hrun, hw1, hrem1, hsent1⟩ := ih S remaining cnt hw hrem hsent
      have hcount : ∀ x, x < k → (r :: sched).count x = sched.count x := by
        intro x hx
        have hx2 : (r == x) = false := by
          have : r ≠ x := by omega
          simpa using this
        simp [List.count_cons, hx2]
      refine ⟨S1, rem1, ?_, hw1, ?_, ?_⟩
      · simp only [runRounds, hr, if_false]
        exact hrun
      · intro x hx
        rw [hrem1 x hx, hcount x hx]
      · intro i hi
        rw [hsent1 i hi]
        congr 1
        apply countP_same
        intro x hx
        rw [hcount x (List.mem_range.mp hx)]

/-- C16: with every merge one critical section and an execution of `Run` a schedule
of the critical sections of its `Count` rounds, against a transport that is a
function of the TTL, on an orchestrator of ring capacity at least 1 without
records: every schedule runs without a panic, and after every schedule in which
each round has had its turns up to its stopping TTL s (the same for all rounds),
all rounds have returned and Sent equals `Count` at every TTL from 1 to s. -/
theorem run_sent_equals_rounds (probe : Int → ICMPReturn) (ids : Nat → Int) (m : MTR)
    (sched : List Nat) (s : Int) (hn : 1 ≤ m.ringBufferSize)
    (hm : ∀ t, m.Statistic t = none)
    (hs : (1 ≤ s ∧ s < m.maxHops ∧ (probe s).Addr = m.Address ∧
          ∀ t, 1 ≤ t → t < s → (probe t).Addr ≠ m.Address) ∨
        (s = m.maxHops - 1 ∧ ∀ t, 1 ≤ t → t < m.maxHops → (probe t).Addr ≠ m.Address))
    (hfair : ∀ r, r < m.Count.toNat → s.toNat ≤ sched.count r) :
    (∀ sched2, ∃ res, Run probe ids sched2 m = some res) ∧
    ∃ m1 remaining, Run probe ids sched m = some (m1, remaining) ∧
      (∀ r, r < m.Count.toNat → remaining r = []) ∧
      (∀ t, 1 ≤ t → t ≤ s → sentAt m1 t = (m.Count.toNat : Int)) := by
  have hjn : s.toNat ≤ (m.maxHops - 1).toNat := by
    rcases hs with ⟨h1, h2, _, _⟩ | ⟨h1, _⟩
    · omega
    · rw [h1]
  have hmiss : ∀ i : Nat, i + 1 < s.toNat → (probe (1 + (i : Int))).Addr ≠ m.Address := by
    intro i hi
    rcases hs with ⟨_, _, _, h4⟩ | ⟨h1, h2⟩
    · exact h4 _ (by omega) (by omega)
    · exact h2 _ (by omega) (by omega)
  have hlast : 1 ≤ s.toNat → ((probe (1 + ((s.toNat : Int) - 1))).Addr = m.Address ∨
      s.toNat = (m.maxHops - 1).toNat) := by
    intro h1
    rcases hs with ⟨_, _, h3, _⟩ | ⟨h2, _⟩
    · left
      have e : (1 : Int) + ((s.toNat : Int) - 1) = s := by
        rw [Int.toNat_of_nonneg (by omega)]; ring
      rw [e]; exact h3
    · right; rw [h2]
  have hinit : ∀ r, r < m.Count.toNat →
      (fun _ : Nat => ttlsFrom 1 (m.maxHops - 1).toNat) r =
        remainingAfter (m.maxHops - 1).toNat s.toNat ((fun _ : Nat => 0) r) := by
    intro r _
    by_cases h0 : 0 < s.toNat
    · simp [remainingAfter, h0]
    · have hz : (m.maxHops - 1).toNat = 0 := by
        rcases hs with ⟨h1, _⟩ | ⟨h1, _⟩
        · omega
        · rw [h1] at h0; omega
      simp [remainingAfter, h0, hz, ttlsFrom]
  have hsent0 : ∀ i : Nat, i < s.toNat →
      sentAt { m with Statistic := m.Statistic } (1 + (i : Int)) =
        (((List.range m.Count.toNat).countP
          (fun r => decide (i < (fun _ : Nat => 0) r)) : Nat) : Int) := by
    intro i _
    simp [sentAt, hm]
  have hw0 : ∀ t u, m.Statistic t = some u → u.Packets.slots ≠ [] := by
    intro t u hu
    rw [hm t] at hu
    cases hu
  have hinv := fun sched2 => runRounds_invariant probe ids m m.Count.toNat
    (m.maxHops - 1).toNat s.toNat hn hjn hmiss hlast sched2 m.Statistic
    (fun _ => ttlsFrom 1 (m.maxHops - 1).toNat) (fun _ => 0) hw0 hinit hsent0
  constructor
  · intro sched2
    obtain ⟨S1, rem1, hrun, _⟩ := hinv sched2
    exact ⟨_, hrun⟩
  · obtain ⟨S1, rem1, hrun, _, hrem1, hsent1⟩ := hinv sched
    refine ⟨{ m with Statistic := S1 }, rem1, hrun, ?_, ?_⟩
    · intro r hr
      rw [hrem1 r hr]
      have : ¬ (0 + sched.count r < s.toNat) := by
        have := hfair r hr
        omega
      rw [remainingAfter, if_neg this]
    · intro t ht1 ht2
      have e : (1 : Int) + (((t - 1).toNat : Nat) : Int) = t := by
        rw [Int.toNat_of_nonneg (by omega)]; ring
      have := hsent1 (t - 1).toNat (by omega)
      rw [e] at this
      rw [this]
      congr 1
      rw [List.countP_eq_length.mpr, List.length_range]
      intro r hr
      have := hfair r (List.mem_range.mp hr)
      simp only [decide_eq_true_eq]
      omega

/-- Witness of C16: three rounds taking turns on the path whose destination
answers at TTL 4; Sent is 3 at the TTLs 1 to 4. -/
theorem run_sent_equals_rounds_witness :
    ∃ m1 remaining, Run pathProbe (fun r => (r : Int)) (roundRobinSchedule 3 4) pathRun =
        some (m1, remaining) ∧
      (∀ r, r < 3 → remaining r = []) ∧
      (∀ t, 1 ≤ t → t ≤ 4 → sentAt m1 t = 3) :=
  (run_sent_equals_rounds pathProbe (fun r => (r : Int)) pathRun (roundRobinSchedule 3 4) 4
    (by decide) (fun _ => rfl)
    (Or.inl ⟨by decide, by decide, by decide, by
      intro t h1 h2
      have : t = 1 ∨ t = 2 ∨ t = 3 := by omega
      rcases this with e | e | e <;> subst e <;> decide⟩)
    (by
      intro r hr
      have : r = 0 ∨ r = 1 ∨ r = 2 := by
        have h3 : r < 3 := hr
        omega
      rcases this with e | e | e <;> subst e <;> decide)).2
end Emtr
